import Mathlib

/-!
Shallow embedding of the backgammon move-generation engine and the
depth-limited expectimax search of the repository (files
`src/game/board.py`, `src/game/state.py`, `src/game/rules.py`,
`src/ai/heuristics.py`, `src/ai/expectimax.py`), together with theorems
checking the natural-language specification against it.

Modelling conventions:
  * numpy integer arrays become `List Int` (the 24 `points`) and
    `Player → Int` functions (the 2-element `bar` / `borne_off` arrays,
    indexed in the source through `player_index`);
  * Python exceptions (`raise ValueError`) become `Except String`;
  * Python floats become exact values: rationals `ℚ` extended with the
    IEEE special values `-inf`, `+inf`, `nan` (type `XVal`) where the
    search's failure handling needs them;
  * `random.choice` over the tie-break candidates is modelled by
    returning the whole candidate list the code would choose from.
-/

namespace BG

/-- Players: `P1` is the Python constant `PLAYER_1 = +1` (moves from high
indices to low), `P2` is `PLAYER_2 = -1` (moves from low to high). -/
inductive Player where
  | P1
  | P2
deriving DecidableEq, Repr

/-- Signed value of a player, as used in the numpy `points` array. -/
def Player.val : Player → Int
  | .P1 => 1
  | .P2 => -1

/-- `other_player` from rules.py. -/
def other_player : Player → Player
  | .P1 => .P2
  | .P2 => .P1

/-- `N_POINTS` from board.py. -/
def N_POINTS : Nat := 24

/-- `N_CHECKERS_PER_PLAYER` from board.py. -/
def N_CHECKERS_PER_PLAYER : Int := 15

/-- The `Board` dataclass from board.py: signed per-point counts plus
per-player bar and borne-off counters (numpy arrays indexed in the source
through `player_index`, modelled as functions of the player). -/
structure Board where
  points : List Int
  bar : Player → Int
  borne_off : Player → Int

/-- `Board.owner_of_point`: +1, -1 or 0 depending on who owns the 0-based
point index. -/
def Board.owner_of_point (b : Board) (index : Nat) : Int :=
  let val := b.points.getD index 0
  if val > 0 then 1 else if val < 0 then -1 else 0

/-- `Board.count_on_point`: number of checkers on a point (absolute value). -/
def Board.count_on_point (b : Board) (index : Nat) : Int :=
  ((b.points.getD index 0).natAbs : Int)

/-- `Board.total_checkers_for`: total checkers belonging to `player`
anywhere (board + bar + borne off); the numpy fancy-indexing sum
`np.sum(points[points * player > 0] * player)` becomes a filter/map/sum. -/
def Board.total_checkers_for (b : Board) (player : Player) : Int :=
  ((b.points.filter (fun x => decide (x * player.val > 0))).map
      (fun x => x * player.val)).sum
    + b.bar player + b.borne_off player

/-- `Board.move_checker` from board.py: remove one checker of `player`
from the origin (bar when `from_idx` is `none`), then add it to the
destination (borne off when `to_idx` is `none`).  The two `raise
ValueError` sites become `Except.error`. -/
def Board.move_checker (b : Board) (player : Player)
    (from_idx to_idx : Option Nat) : Except String Board := do
  let b1 ← match from_idx with
    | none =>
        if b.bar player ≤ 0 then
          Except.error "No checker for player on bar to move."
        else
          Except.ok { b with bar := Function.update b.bar player (b.bar player - 1) }
    | some i =>
        if b.owner_of_point i ≠ player.val then
          Except.error "Source point does not belong to player."
        else
          Except.ok { b with points := b.points.set i (b.points.getD i 0 - player.val) }
  match to_idx with
  | none =>
      Except.ok { b1 with
        borne_off := Function.update b1.borne_off player (b1.borne_off player + 1) }
  | some j =>
      Except.ok { b1 with points := b1.points.set j (b1.points.getD j 0 + player.val) }

/-- `Board.hit_checker_at` from board.py: send one checker of
`victim_player` from `index` to the bar; raises when the point is not
owned by the victim. -/
def Board.hit_checker_at (b : Board) (victim_player : Player) (index : Nat) :
    Except String Board :=
  if b.owner_of_point index ≠ victim_player.val then
    Except.error "Cannot hit: point not owned by victim_player."
  else
    Except.ok { b with
      points := b.points.set index (b.points.getD index 0 + (-victim_player.val)),
      bar := Function.update b.bar victim_player (b.bar victim_player + 1) }

/-- One entry of the `history` list of `GameState` (the dict written by
`GameState.record_turn`, without the free-form `action` payload). -/
structure HistEntry where
  turn : Nat
  player : Int
  dice : Nat × Nat
deriving DecidableEq, Repr

/-- The `GameState` dataclass from state.py. -/
structure GameState where
  board : Board
  current_player : Player
  dice : Option (Nat × Nat)
  turn_number : Nat
  history : List HistEntry

/-- `GameState.copy` from state.py: deep copy of the board (identity in
the value semantics of the embedding), history dropped unless
`copy_history` is true. -/
def GameState.copy (s : GameState) (copy_history : Bool) : GameState :=
  { s with history := if copy_history then s.history else [] }

/-- `GameState.is_game_over`: either player has borne off all 15 checkers. -/
def GameState.is_game_over (s : GameState) : Bool :=
  decide (N_CHECKERS_PER_PLAYER ≤ s.board.borne_off .P1)
    || decide (N_CHECKERS_PER_PLAYER ≤ s.board.borne_off .P2)

/-- The `Step` dataclass from rules.py: `from_point = none` means from the
bar, `to_point = none` means bearing off. -/
structure Step where
  from_point : Option Nat
  to_point : Option Nat
  hit_index : Option Nat
deriving DecidableEq, Repr

/-- The `Action` dataclass from rules.py: a full turn as a sequence of
steps. -/
structure Action where
  steps : List Step
deriving DecidableEq, Repr

/-- `direction_for` from rules.py: -1 for `PLAYER_1`, +1 for `PLAYER_2`. -/
def direction_for : Player → Int
  | .P1 => -1
  | .P2 => 1

/-- `home_board_range` from rules.py: indices 0..5 for `PLAYER_1`,
18..23 for `PLAYER_2`. -/
def home_board_range (player : Player) : List Nat :=
  if player = .P1 then List.range' 0 6 else List.range' 18 6

/-- `entry_point_from_bar` from rules.py. -/
def entry_point_from_bar (player : Player) (die : Nat) : Nat :=
  if player = .P1 then 24 - die else die - 1

/-- `all_in_home` from rules.py: true when all of the player's checkers
are in their home board or borne off, checked by the full board scan. -/
def all_in_home (board : Board) (player : Player) : Bool :=
  let home := home_board_range player
  let total := board.total_checkers_for player
  let borne_off := board.borne_off player
  if borne_off = total then true
  else
    let in_home := ((List.range N_POINTS).map (fun idx =>
      if board.owner_of_point idx = player.val ∧ idx ∈ home then
        board.count_on_point idx
      else 0)).sum
    decide (in_home + borne_off = total)

/-- `single_die_moves` from rules.py: all legal single-step moves for the
current player using one die (bar entry, normal moves, hits, simplified
bear-off). -/
def single_die_moves (state : GameState) (die : Nat) : List Step :=
  let board := state.board
  let player := state.current_player
  let dir := direction_for player
  if board.bar player > 0 then
    let dest := entry_point_from_bar player die
    let owner := board.owner_of_point dest
    let count := board.count_on_point dest
    if owner = 0 ∨ owner = player.val ∨ (owner ≠ player.val ∧ count = 1) then
      [{ from_point := none, to_point := some dest,
         hit_index := if owner ≠ 0 ∧ owner ≠ player.val ∧ count = 1
                      then some dest else none }]
    else []
  else
    (List.range N_POINTS).flatMap (fun idx =>
      if board.owner_of_point idx ≠ player.val then []
      else
        let target : Int := (idx : Int) + dir * (die : Int)
        if target < 0 ∨ (N_POINTS : Int) ≤ target then
          if idx ∈ home_board_range player ∧ all_in_home board player = true then
            [{ from_point := some idx, to_point := none, hit_index := none }]
          else []
        else
          let t := target.toNat
          let owner := board.owner_of_point t
          let count := board.count_on_point t
          if owner ≠ 0 ∧ owner ≠ player.val ∧ count > 1 then []
          else
            [{ from_point := some idx, to_point := some t,
               hit_index := if owner ≠ 0 ∧ owner ≠ player.val ∧ count = 1
                            then some t else none }])

/-- `apply_step` from rules.py: apply one step for the current player on a
history-free copy of the state; hit first (victim to the bar), then move
the checker itself. -/
def apply_step (state : GameState) (step : Step) : Except String GameState := do
  let new_state := state.copy false
  let player := new_state.current_player
  let board1 ← match step.hit_index with
    | some h => new_state.board.hit_checker_at (other_player player) h
    | none => Except.ok new_state.board
  let board2 ← board1.move_checker player step.from_point step.to_point
  Except.ok { new_state with board := board2 }

/-- `apply_action` from rules.py: fold `apply_step` over the steps of an
action, leaving `current_player` and `turn_number` untouched. -/
def apply_action (state : GameState) (action : Action) : Except String GameState :=
  action.steps.foldlM (fun s step => apply_step s step) state

/-- Body of `_generate_action_candidates._recurse` from rules.py, made
structural with a fuel parameter that bounds the recursion depth (each
recursive call removes exactly one die from `available`, so
`available.length` fuel is always enough; at fuel 0 only
`available = []` is reachable and the leaf is recorded all the same).
Each candidate is returned as `(steps, dice_used)`. -/
def genCandFuel : Nat → GameState → List Nat →
    Except String (List (List Step × List Nat))
  | 0, _, _ => Except.ok [([], [])]
  | fuel + 1, st, available =>
      let options := (List.range available.length).map (fun i =>
        (available.getD i 0, available.eraseIdx i,
         single_die_moves st (available.getD i 0)))
      let active := options.filter (fun o => !o.2.2.isEmpty)
      if active.isEmpty then Except.ok [([], [])]
      else do
        let chunks ← active.mapM (fun o => do
          let parts ← o.2.2.mapM (fun step => do
            let st2 ← apply_step st step
            let subs ← genCandFuel fuel st2 o.2.1
            pure (subs.map (fun sd => (step :: sd.1, o.1 :: sd.2))))
          pure parts.flatten)
        pure chunks.flatten

/-- `_generate_action_candidates` from rules.py: enumerate every maximal
sequence playable from the remaining dice multiset. -/
def genCand (state : GameState) (remaining_dice : List Nat) :
    Except String (List (List Step × List Nat)) :=
  genCandFuel remaining_dice.length state remaining_dice

/-- First-occurrence deduplication, the effect of the Python idiom
`list({a: None for a in actions}.keys())` (a dict keeps the first
occurrence of each key, in insertion order). -/
def dedupFirst (l : List Action) : List Action :=
  l.foldl (fun acc a => if a ∈ acc then acc else acc ++ [a]) []

/-- `legal_actions` from rules.py (the second, authoritative definition):
enumerate candidates, keep only maximum-length sequences, prefer the
higher die among length-1 sequences of a non-double roll, deduplicate. -/
def legal_actions (state : GameState) (dice : Nat × Nat) :
    Except String (List Action) := do
  let d1 := dice.1
  let d2 := dice.2
  let remaining_dice := if d1 = d2 then [d1, d1, d1, d1] else [d1, d2]
  let raw_candidates ← genCand state remaining_dice
  if raw_candidates.isEmpty then Except.ok []
  else
    let max_len := (raw_candidates.map (fun sd => sd.1.length)).foldl Nat.max 0
    if max_len = 0 then Except.ok []
    else
      let best0 := raw_candidates.filter (fun sd => sd.1.length == max_len)
      let best :=
        if max_len = 1 ∧ d1 ≠ d2 then
          let high := Nat.max d1 d2
          let with_high := best0.filter (fun sd => decide (high ∈ sd.2))
          if with_high.isEmpty then best0 else with_high
        else best0
      Except.ok (dedupFirst (best.map (fun sd => Action.mk sd.1)))

/-- `expand_dice` from dice.py (the same expression is inlined in
`legal_actions`). -/
def expand_dice (d1 d2 : Nat) : List Nat :=
  if d1 = d2 then [d1, d1, d1, d1] else [d1, d2]

/-! ### Basic helper lemmas -/

theorem other_player_ne (p : Player) : other_player p ≠ p := by
  cases p <;> simp [other_player]

theorem val_other_player (p : Player) : (other_player p).val = -p.val := by
  cases p <;> rfl

theorem other_other_player (p : Player) : other_player (other_player p) = p := by
  cases p <;> rfl

/-- Contribution of one point value to `player`'s on-board checker count. -/
def posPart (p : Player) (x : Int) : Int :=
  if x * p.val > 0 then x * p.val else 0

theorem filter_map_sum_posPart (p : Player) (l : List Int) :
    ((l.filter (fun x => decide (x * p.val > 0))).map (fun x => x * p.val)).sum
      = (l.map (posPart p)).sum := by
  induction l with
  | nil => rfl
  | cons x xs ih =>
      by_cases h : x * p.val > 0 <;>
        simp [List.filter_cons, h, posPart, ih]

/-- `total_checkers_for` rewritten as a per-point sum of `posPart`. -/
theorem total_checkers_eq (b : Board) (p : Player) :
    b.total_checkers_for p
      = (b.points.map (posPart p)).sum + b.bar p + b.borne_off p := by
  unfold Board.total_checkers_for
  rw [filter_map_sum_posPart]

theorem sum_map_set (f : Int → Int) :
    ∀ (l : List Int) (i : Nat), i < l.length →
      ∀ a, ((l.set i a).map f).sum = (l.map f).sum - f (l.getD i 0) + f a := by
  intro l
  induction l with
  | nil => intro i hi; simp at hi
  | cons x xs ih =>
      intro i hi a
      cases i with
      | zero =>
          simp only [List.set_cons_zero, List.map_cons, List.sum_cons,
            List.getD_cons_zero]
          omega
      | succ n =>
          have hn : n < xs.length := by simpa using hi
          simp only [List.set_cons_succ, List.map_cons, List.sum_cons,
            List.getD_cons_succ, ih n hn a]
          omega

theorem getD_set_self {l : List Int} {i : Nat} (h : i < l.length) (a : Int) :
    (l.set i a).getD i 0 = a := by
  simp [List.getElem?_set_self h]

theorem getD_set_ne {l : List Int} {i j : Nat} (h : i ≠ j) (a : Int) :
    (l.set i a).getD j 0 = l.getD j 0 := by
  simp [List.getElem?_set_ne h]

/-! Sign bookkeeping for `posPart`. -/

theorem posPart_own_add {p : Player} {x : Int} (h : 0 ≤ x * p.val) :
    posPart p (x + p.val) = posPart p x + 1 := by
  cases p <;> simp only [posPart, Player.val, mul_one, mul_neg_one] at * <;>
    split_ifs <;> omega

theorem posPart_own_sub {p : Player} {x : Int} (h : 1 ≤ x * p.val) :
    posPart p (x - p.val) = posPart p x - 1 := by
  cases p <;> simp only [posPart, Player.val, mul_one, mul_neg_one] at * <;>
    split_ifs <;> omega

theorem posPart_other_of_nonneg {p : Player} {x : Int} (h : 0 ≤ x * p.val) :
    posPart (other_player p) x = 0 := by
  cases p <;>
    simp only [posPart, other_player, Player.val, mul_one, mul_neg_one] at * <;>
    split_ifs <;> omega

theorem posPart_other_add {p : Player} {x : Int} (h : 0 ≤ x * p.val) :
    posPart (other_player p) (x + p.val) = 0 := by
  cases p <;>
    simp only [posPart, other_player, Player.val, mul_one, mul_neg_one] at * <;>
    split_ifs <;> omega

theorem posPart_other_sub {p : Player} {x : Int} (h : 1 ≤ x * p.val) :
    posPart (other_player p) (x - p.val) = 0 := by
  cases p <;>
    simp only [posPart, other_player, Player.val, mul_one, mul_neg_one] at * <;>
    split_ifs <;> omega

theorem posPart_self_neg_val (p : Player) : posPart p (-p.val) = 0 := by
  cases p <;> simp [posPart, Player.val]

theorem posPart_other_neg_val (p : Player) : posPart (other_player p) (-p.val) = 1 := by
  cases p <;> simp [posPart, other_player, Player.val]

theorem posPart_zero (p : Player) : posPart p 0 = 0 := by
  cases p <;> simp [posPart]

theorem posPart_val (p : Player) : posPart p p.val = 1 := by
  cases p <;> simp [posPart, Player.val]

theorem posPart_other_val (p : Player) : posPart (other_player p) p.val = 0 := by
  cases p <;> simp [posPart, other_player, Player.val]

/-! Ownership facts. -/

theorem owner_cases (b : Board) (i : Nat) :
    b.owner_of_point i = 0 ∨ b.owner_of_point i = 1 ∨ b.owner_of_point i = -1 := by
  simp only [Board.owner_of_point]
  split_ifs <;> simp

theorem owner_eq_other_val {b : Board} {i : Nat} {p : Player}
    (h0 : b.owner_of_point i ≠ 0) (hp : b.owner_of_point i ≠ p.val) :
    b.owner_of_point i = (other_player p).val := by
  rcases owner_cases b i with h | h | h <;> cases p <;>
    simp_all [Player.val, other_player]

theorem val_pos_of_owner {b : Board} {i : Nat} {p : Player}
    (h : b.owner_of_point i = p.val) : 1 ≤ b.points.getD i 0 * p.val := by
  simp only [Board.owner_of_point] at h
  cases p <;> simp only [Player.val, mul_one, mul_neg_one] at * <;>
    split_ifs at h <;> omega

theorem val_zero_of_owner {b : Board} {i : Nat}
    (h : b.owner_of_point i = 0) : b.points.getD i 0 = 0 := by
  simp only [Board.owner_of_point] at h
  split_ifs at h <;> omega

theorem val_eq_neg_of_blot {b : Board} {i : Nat} {p : Player}
    (ho : b.owner_of_point i = (other_player p).val)
    (hc : b.count_on_point i = 1) : b.points.getD i 0 = -p.val := by
  simp only [Board.owner_of_point] at ho
  simp only [Board.count_on_point] at hc
  have : (b.points.getD i 0).natAbs = 1 := by exact_mod_cast hc
  cases p <;> simp only [other_player, Player.val] at ho ⊢ <;>
    split_ifs at ho <;> omega

theorem owner_nonzero_iff {b : Board} {i : Nat} :
    b.owner_of_point i ≠ 0 ↔ b.points.getD i 0 ≠ 0 := by
  simp only [Board.owner_of_point]
  split_ifs <;> constructor <;> intro h' <;> omega

/-! ### Characterization of `single_die_moves` membership

The following definitions name the conditions tested inside
`single_die_moves`, so that its output can be described claim by claim. -/

/-- Bar entry is legal: the entry point is empty, owned by the mover, or a
blot. -/
def entryOk (st : GameState) (die : Nat) : Prop :=
  st.board.owner_of_point (entry_point_from_bar st.current_player die) = 0 ∨
  st.board.owner_of_point (entry_point_from_bar st.current_player die)
    = st.current_player.val ∨
  (st.board.owner_of_point (entry_point_from_bar st.current_player die)
     ≠ st.current_player.val ∧
   st.board.count_on_point (entry_point_from_bar st.current_player die) = 1)

/-- The destination holds exactly one enemy checker (a hit). -/
def hitCond (st : GameState) (t : Nat) : Prop :=
  st.board.owner_of_point t ≠ 0 ∧
  st.board.owner_of_point t ≠ st.current_player.val ∧
  st.board.count_on_point t = 1

instance (st : GameState) (t : Nat) : Decidable (hitCond st t) := by
  unfold hitCond; infer_instance

/-- The destination holds two or more enemy checkers (blocked). -/
def blockedCond (st : GameState) (t : Nat) : Prop :=
  st.board.owner_of_point t ≠ 0 ∧
  st.board.owner_of_point t ≠ st.current_player.val ∧
  st.board.count_on_point t > 1

instance (st : GameState) (t : Nat) : Decidable (blockedCond st t) := by
  unfold blockedCond; infer_instance

/-- The step emitted by the bar-entry branch of `single_die_moves`. -/
def entryStep (st : GameState) (die : Nat) : Step :=
  { from_point := none,
    to_point := some (entry_point_from_bar st.current_player die),
    hit_index := if hitCond st (entry_point_from_bar st.current_player die)
                 then some (entry_point_from_bar st.current_player die)
                 else none }

/-- The raw (possibly out-of-range) destination `idx + direction * die`. -/
def stepTarget (st : GameState) (die idx : Nat) : Int :=
  (idx : Int) + direction_for st.current_player * (die : Int)

/-- The step emitted by the in-range branch of `single_die_moves`. -/
def normalStep (st : GameState) (die idx : Nat) : Step :=
  { from_point := some idx,
    to_point := some (stepTarget st die idx).toNat,
    hit_index := if hitCond st (stepTarget st die idx).toNat
                 then some (stepTarget st die idx).toNat
                 else none }

theorem mem_single_die_moves {st : GameState} {die : Nat} {step : Step}
    (h : step ∈ single_die_moves st die) :
    (0 < st.board.bar st.current_player ∧ entryOk st die ∧ step = entryStep st die) ∨
    (¬ 0 < st.board.bar st.current_player ∧
      ∃ idx, idx < N_POINTS ∧
        st.board.owner_of_point idx = st.current_player.val ∧
        (((stepTarget st die idx < 0 ∨ (N_POINTS : Int) ≤ stepTarget st die idx) ∧
            idx ∈ home_board_range st.current_player ∧
            all_in_home st.board st.current_player = true ∧
            step = { from_point := some idx, to_point := none, hit_index := none }) ∨
         (0 ≤ stepTarget st die idx ∧ stepTarget st die idx < (N_POINTS : Int) ∧
            ¬ blockedCond st (stepTarget st die idx).toNat ∧
            step = normalStep st die idx))) := by
  simp only [single_die_moves] at h
  by_cases hb : st.board.bar st.current_player > 0
  · rw [if_pos hb] at h
    left
    refine ⟨hb, ?_⟩
    by_cases hleg : entryOk st die
    · have hleg' := hleg
      unfold entryOk at hleg'
      rw [if_pos hleg'] at h
      have hst : step = _ := List.mem_singleton.mp h
      refine ⟨hleg, ?_⟩
      rw [hst]
      unfold entryStep hitCond
      rfl
    · have hleg' := hleg
      unfold entryOk at hleg'
      rw [if_neg hleg'] at h
      simp at h
  · rw [if_neg hb] at h
    right
    refine ⟨hb, ?_⟩
    obtain ⟨idx, hidx, hin⟩ := List.mem_flatMap.mp h
    refine ⟨idx, List.mem_range.mp hidx, ?_⟩
    by_cases hown : st.board.owner_of_point idx ≠ st.current_player.val
    · rw [if_pos hown] at hin
      simp at hin
    · rw [if_neg hown] at hin
      push_neg at hown
      refine ⟨hown, ?_⟩
      by_cases hover : stepTarget st die idx < 0 ∨ (N_POINTS : Int) ≤ stepTarget st die idx
      · have hover' := hover
        unfold stepTarget at hover'
        rw [if_pos hover'] at hin
        left
        by_cases hhome : idx ∈ home_board_range st.current_player ∧
            all_in_home st.board st.current_player = true
        · rw [if_pos hhome] at hin
          have hst : step = _ := List.mem_singleton.mp hin
          exact ⟨hover, hhome.1, hhome.2, hst⟩
        · rw [if_neg hhome] at hin
          simp at hin
      · have hover' := hover
        unfold stepTarget at hover'
        rw [if_neg hover'] at hin
        push_neg at hover
        right
        refine ⟨hover.1, hover.2, ?_⟩
        by_cases hblk : blockedCond st (stepTarget st die idx).toNat
        · have hblk' := hblk
          unfold blockedCond stepTarget at hblk'
          rw [if_pos hblk'] at hin
          simp at hin
        · have hblk' := hblk
          unfold blockedCond stepTarget at hblk'
          rw [if_neg hblk'] at hin
          have hst : step = _ := List.mem_singleton.mp hin
          refine ⟨hblk, ?_⟩
          rw [hst]
          unfold normalStep hitCond stepTarget
          rfl

theorem entryStep_mem {st : GameState} {die : Nat}
    (hb : 0 < st.board.bar st.current_player) (hleg : entryOk st die) :
    entryStep st die ∈ single_die_moves st die := by
  simp only [single_die_moves]
  rw [if_pos hb]
  unfold entryOk at hleg
  rw [if_pos hleg]
  unfold entryStep hitCond
  exact List.mem_singleton.mpr rfl

theorem bearOffStep_mem {st : GameState} {die idx : Nat}
    (hb : ¬ 0 < st.board.bar st.current_player) (hidx : idx < N_POINTS)
    (hown : st.board.owner_of_point idx = st.current_player.val)
    (hover : stepTarget st die idx < 0 ∨ (N_POINTS : Int) ≤ stepTarget st die idx)
    (hhome : idx ∈ home_board_range st.current_player)
    (hall : all_in_home st.board st.current_player = true) :
    Step.mk (some idx) none none ∈ single_die_moves st die := by
  simp only [single_die_moves]
  rw [if_neg hb]
  refine List.mem_flatMap.mpr ⟨idx, List.mem_range.mpr hidx, ?_⟩
  rw [if_neg (by simp [hown])]
  unfold stepTarget at hover
  rw [if_pos hover, if_pos ⟨hhome, hall⟩]
  exact List.mem_singleton.mpr rfl

theorem normalStep_mem {st : GameState} {die idx : Nat}
    (hb : ¬ 0 < st.board.bar st.current_player) (hidx : idx < N_POINTS)
    (hown : st.board.owner_of_point idx = st.current_player.val)
    (hin0 : 0 ≤ stepTarget st die idx)
    (hin1 : stepTarget st die idx < (N_POINTS : Int))
    (hblk : ¬ blockedCond st (stepTarget st die idx).toNat) :
    normalStep st die idx ∈ single_die_moves st die := by
  simp only [single_die_moves]
  rw [if_neg hb]
  refine List.mem_flatMap.mpr ⟨idx, List.mem_range.mpr hidx, ?_⟩
  rw [if_neg (by simp [hown])]
  have hover : ¬ ((stepTarget st die idx < 0) ∨
      ((N_POINTS : Int) ≤ stepTarget st die idx)) := by
    push_neg
    exact ⟨hin0, hin1⟩
  unfold stepTarget at hover
  rw [if_neg hover]
  unfold blockedCond stepTarget at hblk
  rw [if_neg hblk]
  unfold normalStep hitCond stepTarget
  exact List.mem_singleton.mpr rfl

/-! ### Symbolic evaluation of the board mutations -/

theorem move_checker_bar_point {b : Board} {pl : Player} {j : Nat}
    (h : 0 < b.bar pl) :
    b.move_checker pl none (some j) =
      Except.ok { b with bar := Function.update b.bar pl (b.bar pl - 1),
                         points := b.points.set j (b.points.getD j 0 + pl.val) } := by
  simp only [Board.move_checker]
  rw [if_neg (not_le.mpr h)]
  rfl

theorem move_checker_bar_off {b : Board} {pl : Player}
    (h : 0 < b.bar pl) :
    b.move_checker pl none none =
      Except.ok { b with bar := Function.update b.bar pl (b.bar pl - 1),
                         borne_off := Function.update b.borne_off pl (b.borne_off pl + 1) } := by
  simp only [Board.move_checker]
  rw [if_neg (not_le.mpr h)]
  rfl

theorem move_checker_point_point {b : Board} {pl : Player} {i j : Nat}
    (h : b.owner_of_point i = pl.val) :
    b.move_checker pl (some i) (some j) =
      Except.ok { b with
                  points := (b.points.set i (b.points.getD i 0 - pl.val)).set j
                    ((b.points.set i (b.points.getD i 0 - pl.val)).getD j 0 + pl.val) } := by
  simp only [Board.move_checker]
  rw [if_neg (by simp [h])]
  rfl

theorem move_checker_point_off {b : Board} {pl : Player} {i : Nat}
    (h : b.owner_of_point i = pl.val) :
    b.move_checker pl (some i) none =
      Except.ok { b with points := b.points.set i (b.points.getD i 0 - pl.val),
                         borne_off := Function.update b.borne_off pl (b.borne_off pl + 1) } := by
  simp only [Board.move_checker]
  rw [if_neg (by simp [h])]
  rfl

theorem hit_checker_at_ok {b : Board} {vic : Player} {i : Nat}
    (h : b.owner_of_point i = vic.val) :
    b.hit_checker_at vic i =
      Except.ok { b with points := b.points.set i (b.points.getD i 0 + (-vic.val)),
                         bar := Function.update b.bar vic (b.bar vic + 1) } := by
  simp only [Board.hit_checker_at]
  rw [if_neg (by simp [h])]

theorem apply_step_no_hit {st : GameState} {fp tp : Option Nat} :
    apply_step st { from_point := fp, to_point := tp, hit_index := none } =
      ((st.board.move_checker st.current_player fp tp).bind
        (fun b2 => Except.ok { st with board := b2, history := [] })) := rfl

theorem apply_step_hit {st : GameState} {fp tp : Option Nat} {h : Nat} :
    apply_step st { from_point := fp, to_point := tp, hit_index := some h } =
      ((st.board.hit_checker_at (other_player st.current_player) h).bind
        (fun b1 => (b1.move_checker st.current_player fp tp).bind
          (fun b2 => Except.ok { st with board := b2, history := [] }))) := rfl

theorem ok_bind {α β : Type} (a : α) (f : α → Except String β) :
    (Except.ok a : Except String α).bind f = f a := rfl

theorem eq_or_eq_other (q p : Player) : q = p ∨ q = other_player p := by
  cases q <;> cases p <;> simp [other_player]

theorem entry_lt {pl : Player} {die : Nat} (h1 : 1 ≤ die) (h6 : die ≤ 6) :
    entry_point_from_bar pl die < N_POINTS := by
  cases pl <;> simp [entry_point_from_bar, N_POINTS] <;> omega

/-- Adding one of `pl`'s checkers on a point that is empty or `pl`'s own. -/
theorem sum_posPart_add {l : List Int} {j : Nat} {pl : Player} (q : Player)
    (hj : j < l.length) (hv : 0 ≤ l.getD j 0 * pl.val) :
    ((l.set j (l.getD j 0 + pl.val)).map (posPart q)).sum
      = (l.map (posPart q)).sum + (if q = pl then 1 else 0) := by
  rw [sum_map_set _ _ _ hj]
  rcases eq_or_eq_other q pl with hq | hq
  · rw [hq, posPart_own_add hv, if_pos rfl]
    omega
  · rw [hq, posPart_other_add hv, posPart_other_of_nonneg hv,
        if_neg (other_player_ne pl)]
    omega

/-- Removing one of `pl`'s checkers from a point `pl` owns. -/
theorem sum_posPart_remove {l : List Int} {i : Nat} {pl : Player} (q : Player)
    (hi : i < l.length) (hv : 1 ≤ l.getD i 0 * pl.val) :
    ((l.set i (l.getD i 0 - pl.val)).map (posPart q)).sum
      = (l.map (posPart q)).sum - (if q = pl then 1 else 0) := by
  rw [sum_map_set _ _ _ hi]
  rcases eq_or_eq_other q pl with hq | hq
  · rw [hq, posPart_own_sub hv, if_pos rfl]
    omega
  · rw [hq, posPart_other_sub hv, posPart_other_of_nonneg (by omega),
        if_neg (other_player_ne pl)]
    omega

/-- Filling a blot of the opponent: the hit writes `v + pl.val = 0`. -/
theorem sum_posPart_blotfill {l : List Int} {h : Nat} {pl : Player} (q : Player)
    (hh : h < l.length) (hv : l.getD h 0 = -pl.val) :
    ((l.set h (l.getD h 0 + pl.val)).map (posPart q)).sum
      = (l.map (posPart q)).sum - (if q = other_player pl then 1 else 0) := by
  rw [sum_map_set _ _ _ hh, hv]
  rcases eq_or_eq_other q pl with hq | hq
  · rw [hq, posPart_self_neg_val pl]
    simp only [neg_add_cancel, posPart_zero]
    rw [if_neg (fun he => other_player_ne pl he.symm)]
    omega
  · rw [hq, posPart_other_neg_val pl]
    simp only [neg_add_cancel, posPart_zero]
    simp only [if_true, eq_self_iff_true]
    omega

theorem neg_val_other (pl : Player) : -(other_player pl).val = pl.val := by
  rw [val_other_player, neg_neg]

/-- A legal, non-hitting entry point is empty or the mover's own. -/
theorem entry_nonneg {st : GameState} {die : Nat}
    (hleg : entryOk st die)
    (hnh : ¬ hitCond st (entry_point_from_bar st.current_player die)) :
    0 ≤ st.board.points.getD (entry_point_from_bar st.current_player die) 0
        * st.current_player.val := by
  rcases hleg with h0 | hp | ⟨hne, hc⟩
  · rw [val_zero_of_owner h0]
    simp
  · have := val_pos_of_owner hp
    omega
  · have h0 : st.board.owner_of_point (entry_point_from_bar st.current_player die) = 0 := by
      by_contra h0'
      exact hnh ⟨h0', hne, hc⟩
    rw [val_zero_of_owner h0]
    simp

/-- A destination that is neither blocked nor a blot is empty or owned by
the mover. -/
theorem dest_nonneg {st : GameState} {t : Nat}
    (hnb : ¬ blockedCond st t) (hnh : ¬ hitCond st t) :
    0 ≤ st.board.points.getD t 0 * st.current_player.val := by
  by_cases h0 : st.board.owner_of_point t = 0
  · rw [val_zero_of_owner h0]
    simp
  by_cases hp : st.board.owner_of_point t = st.current_player.val
  · have := val_pos_of_owner hp
    omega
  · exfalso
    have hc1 : ¬ st.board.count_on_point t = 1 := fun hc => hnh ⟨h0, hp, hc⟩
    have hc2 : ¬ st.board.count_on_point t > 1 := fun hc => hnb ⟨h0, hp, hc⟩
    have hz : st.board.points.getD t 0 ≠ 0 := owner_nonzero_iff.mp h0
    unfold Board.count_on_point at hc1 hc2
    omega

/-- A hit target holds exactly one enemy checker. -/
theorem hit_blot {st : GameState} {t : Nat} (hh : hitCond st t) :
    st.board.points.getD t 0 = -st.current_player.val :=
  val_eq_neg_of_blot (owner_eq_other_val hh.1 hh.2.1) hh.2.2

theorem stepTarget_toNat_ne {st : GameState} {die idx : Nat}
    (h1 : 1 ≤ die) (h0 : 0 ≤ stepTarget st die idx) :
    (stepTarget st die idx).toNat ≠ idx := by
  intro he
  have h2 : ((stepTarget st die idx).toNat : Int) = stepTarget st die idx :=
    Int.toNat_of_nonneg h0
  rw [he] at h2
  unfold stepTarget at h2
  cases hpl : st.current_player <;> rw [hpl] at h2 <;>
    simp only [direction_for] at h2 <;> omega

/-- Soundness of `apply_step` on any move produced by `single_die_moves`:
the application succeeds, the wrapper fields survive as `copy` leaves
them, the board length is preserved, and — on a 24-point board with a die
in 1..6 — both players' total checker counts are conserved. -/
theorem step_sound {st : GameState} {die : Nat} {step : Step}
    (hmem : step ∈ single_die_moves st die) :
    ∃ st2, apply_step st step = Except.ok st2 ∧
      st2.current_player = st.current_player ∧
      st2.dice = st.dice ∧
      st2.turn_number = st.turn_number ∧
      st2.history = [] ∧
      st2.board.points.length = st.board.points.length ∧
      (st.board.points.length = N_POINTS → 1 ≤ die → die ≤ 6 →
        ∀ q, st2.board.total_checkers_for q = st.board.total_checkers_for q) := by
  have hne1 : st.current_player ≠ other_player st.current_player :=
    fun h => other_player_ne st.current_player h.symm
  have hne2 : other_player st.current_player ≠ st.current_player :=
    other_player_ne st.current_player
  rcases mem_single_die_moves hmem with ⟨hb, hleg, hstep⟩ |
    ⟨hb, idx, hidx, hown, ⟨hover, hhome, hall, hstep⟩ | ⟨h0, h1, hblk, hstep⟩⟩
  · -- bar entry
    subst hstep
    by_cases hhit : hitCond st (entry_point_from_bar st.current_player die)
    · -- entry that hits a blot
      have hvic : st.board.owner_of_point (entry_point_from_bar st.current_player die)
          = (other_player st.current_player).val :=
        owner_eq_other_val hhit.1 hhit.2.1
      have he : entryStep st die =
          { from_point := none,
            to_point := some (entry_point_from_bar st.current_player die),
            hit_index := some (entry_point_from_bar st.current_player die) } := by
        unfold entryStep
        rw [if_pos hhit]
      rw [he, apply_step_hit, hit_checker_at_ok hvic, ok_bind]
      rw [move_checker_bar_point
        (by dsimp only; rw [Function.update_noteq hne1]; exact hb), ok_bind]
      refine ⟨_, rfl, rfl, rfl, rfl, rfl, by simp, ?_⟩
      intro hWF hd1 hd6 q
      have hdlt : entry_point_from_bar st.current_player die < st.board.points.length := by
        rw [hWF]; exact entry_lt hd1 hd6
      have hblot := hit_blot hhit
      rw [total_checkers_eq, total_checkers_eq]
      dsimp only
      rw [neg_val_other]
      rw [sum_posPart_add q (by simpa using hdlt)
        (by rw [getD_set_self hdlt, hblot]; simp)]
      rw [sum_posPart_blotfill q hdlt hblot]
      rcases eq_or_eq_other q st.current_player with hq | hq <;> rw [hq] <;>
        simp [Function.update_apply, hne1, hne2] <;> omega
    · -- entry to an empty or own point
      have he : entryStep st die =
          { from_point := none,
            to_point := some (entry_point_from_bar st.current_player die),
            hit_index := none } := by
        unfold entryStep
        rw [if_neg hhit]
      rw [he, apply_step_no_hit, move_checker_bar_point hb, ok_bind]
      refine ⟨_, rfl, rfl, rfl, rfl, rfl, by simp, ?_⟩
      intro hWF hd1 hd6 q
      have hdlt : entry_point_from_bar st.current_player die < st.board.points.length := by
        rw [hWF]; exact entry_lt hd1 hd6
      have hv := entry_nonneg hleg hhit
      rw [total_checkers_eq, total_checkers_eq]
      dsimp only
      rw [sum_posPart_add q hdlt hv]
      rcases eq_or_eq_other q st.current_player with hq | hq <;> rw [hq] <;>
        simp [Function.update_apply, hne1, hne2] <;> omega
  · -- bear off
    subst hstep
    rw [apply_step_no_hit, move_checker_point_off hown, ok_bind]
    refine ⟨_, rfl, rfl, rfl, rfl, rfl, by simp, ?_⟩
    intro hWF hd1 hd6 q
    have hi : idx < st.board.points.length := by rw [hWF]; exact hidx
    have hv := val_pos_of_owner hown
    rw [total_checkers_eq, total_checkers_eq]
    dsimp only
    rw [sum_posPart_remove q hi hv]
    rcases eq_or_eq_other q st.current_player with hq | hq <;> rw [hq] <;>
      simp [Function.update_apply, hne1, hne2] <;> omega
  · -- normal move
    subst hstep
    by_cases hhit : hitCond st (stepTarget st die idx).toNat
    · -- a hitting move
      have hne : (stepTarget st die idx).toNat ≠ idx := by
        intro he
        apply hhit.2.1
        rw [he]
        exact hown
      have hvic : st.board.owner_of_point (stepTarget st die idx).toNat
          = (other_player st.current_player).val :=
        owner_eq_other_val hhit.1 hhit.2.1
      have he : normalStep st die idx =
          { from_point := some idx,
            to_point := some (stepTarget st die idx).toNat,
            hit_index := some (stepTarget st die idx).toNat } := by
        unfold normalStep
        rw [if_pos hhit]
      rw [he, apply_step_hit, hit_checker_at_ok hvic, ok_bind]
      rw [move_checker_point_point
        (by
          show Board.owner_of_point _ idx = st.current_player.val
          unfold Board.owner_of_point
          dsimp only
          rw [getD_set_ne hne]
          unfold Board.owner_of_point at hown
          exact hown), ok_bind]
      refine ⟨_, rfl, rfl, rfl, rfl, rfl, by simp, ?_⟩
      intro hWF hd1 hd6 q
      have hblot := hit_blot hhit
      have ht : (stepTarget st die idx).toNat < st.board.points.length := by
        rw [hWF]
        unfold N_POINTS at h1 ⊢
        omega
      have hi : idx < st.board.points.length := by rw [hWF]; exact hidx
      have hvi := val_pos_of_owner hown
      rw [total_checkers_eq, total_checkers_eq]
      dsimp only
      rw [neg_val_other]
      rw [sum_posPart_add q (by simpa using ht)
        (by rw [getD_set_ne (Ne.symm hne), getD_set_self ht, hblot]; simp)]
      rw [sum_posPart_remove q (by simpa using hi)
        (by rw [getD_set_ne hne]; exact hvi)]
      rw [sum_posPart_blotfill q ht hblot]
      rcases eq_or_eq_other q st.current_player with hq | hq <;> rw [hq] <;>
        simp [Function.update_apply, hne1, hne2] <;> omega
    · -- a quiet move
      have he : normalStep st die idx =
          { from_point := some idx,
            to_point := some (stepTarget st die idx).toNat,
            hit_index := none } := by
        unfold normalStep
        rw [if_neg hhit]
      rw [he, apply_step_no_hit, move_checker_point_point hown, ok_bind]
      refine ⟨_, rfl, rfl, rfl, rfl, rfl, by simp, ?_⟩
      intro hWF hd1 hd6 q
      have hne : (stepTarget st die idx).toNat ≠ idx := stepTarget_toNat_ne hd1 h0
      have ht : (stepTarget st die idx).toNat < st.board.points.length := by
        rw [hWF]
        unfold N_POINTS at h1 ⊢
        omega
      have hi : idx < st.board.points.length := by rw [hWF]; exact hidx
      have hvi := val_pos_of_owner hown
      have hvt := dest_nonneg hblk hhit
      rw [total_checkers_eq, total_checkers_eq]
      dsimp only
      rw [sum_posPart_add q (by simpa using ht)
        (by rw [getD_set_ne (Ne.symm hne)]; exact hvt)]
      rw [sum_posPart_remove q hi hvi]
      rcases eq_or_eq_other q st.current_player with hq | hq <;> rw [hq] <;>
        simp [hne1, hne2] <;> omega

/-! ### Soundness of the candidate enumeration -/

theorem apply_action_nil (st : GameState) :
    apply_action st (Action.mk []) = Except.ok st := rfl

theorem apply_action_cons (st : GameState) (s : Step) (ss : List Step) :
    apply_action st (Action.mk (s :: ss)) =
      (apply_step st s).bind (fun st1 => apply_action st1 (Action.mk ss)) := by
  cases h : apply_step st s with
  | error e => simp only [apply_action, List.foldlM_cons, h]; rfl
  | ok st1 => simp only [apply_action, List.foldlM_cons, h]; rfl

theorem ok_bind_m {α β : Type} (a : α) (f : α → Except String β) :
    ((Except.ok a : Except String α) >>= f) = f a := rfl

theorem mapM_ok_exists {α β : Type} {g : α → Except String β} :
    ∀ {l : List α}, (∀ a ∈ l, ∃ b, g a = Except.ok b) →
      ∃ bs, l.mapM g = Except.ok bs ∧ bs.length = l.length ∧
        (∀ b ∈ bs, ∃ a, a ∈ l ∧ g a = Except.ok b) := by
  intro l
  induction l with
  | nil => intro h; exact ⟨[], rfl, rfl, by simp⟩
  | cons x xs ih =>
      intro h
      obtain ⟨b, hb⟩ := h x (List.mem_cons_self x xs)
      obtain ⟨bs, hbs, hlen, hmem⟩ := ih (fun a ha => h a (List.mem_cons_of_mem x ha))
      refine ⟨b :: bs, ?_, by simp [hlen], ?_⟩
      · rw [List.mapM_cons, hb, hbs]
        rfl
      · intro c hc
        rcases List.mem_cons.mp hc with rfl | hc2
        · exact ⟨x, List.mem_cons_self x xs, hb⟩
        · obtain ⟨a, ha, hga⟩ := hmem c hc2
          exact ⟨a, List.mem_cons_of_mem x ha, hga⟩

/-- Soundness of the recursive enumeration: it never raises, it always
records at least one (possibly empty) sequence, and every recorded
sequence applies cleanly to the start state, preserving the board size
and — for well-formed inputs — both players' checker counts. -/
theorem genCandFuel_sound :
    ∀ (fuel : Nat) (st : GameState) (avail : List Nat),
      ∃ res, genCandFuel fuel st avail = Except.ok res ∧ res ≠ [] ∧
        ∀ su ∈ res, ∃ st2, apply_action st (Action.mk su.1) = Except.ok st2 ∧
          st2.board.points.length = st.board.points.length ∧
          (st.board.points.length = N_POINTS → (∀ d ∈ avail, 1 ≤ d ∧ d ≤ 6) →
            ∀ q, st2.board.total_checkers_for q = st.board.total_checkers_for q) := by
  intro fuel
  induction fuel with
  | zero =>
      intro st avail
      refine ⟨[([], [])], rfl, by simp, ?_⟩
      intro su hsu
      rw [List.mem_singleton.mp hsu]
      exact ⟨st, apply_action_nil st, rfl, fun _ _ _ => rfl⟩
  | succ fuel ih =>
      intro st avail
      simp only [genCandFuel]
      by_cases hact : ((List.range avail.length).map (fun i =>
          (avail.getD i 0, avail.eraseIdx i,
           single_die_moves st (avail.getD i 0)))).filter
            (fun o => !o.2.2.isEmpty) = []
      · rw [hact]
        simp only [List.isEmpty_nil, if_true]
        refine ⟨[([], [])], rfl, by simp, ?_⟩
        intro su hsu
        rw [List.mem_singleton.mp hsu]
        exact ⟨st, apply_action_nil st, rfl, fun _ _ _ => rfl⟩
      · have hActNonempty : ¬ (((List.range avail.length).map (fun i =>
            (avail.getD i 0, avail.eraseIdx i,
             single_die_moves st (avail.getD i 0)))).filter
              (fun o => !o.2.2.isEmpty)).isEmpty = true := by
          simpa [List.isEmpty_iff] using hact
        rw [if_neg hActNonempty]
        -- each active option maps to a successful chunk computation
        have hchunk : ∀ o ∈ ((List.range avail.length).map (fun i =>
            (avail.getD i 0, avail.eraseIdx i,
             single_die_moves st (avail.getD i 0)))).filter
              (fun o => !o.2.2.isEmpty),
            ∃ chunk, (do
              let parts ← o.2.2.mapM (fun step => do
                let st2 ← apply_step st step
                let subs ← genCandFuel fuel st2 o.2.1
                pure (subs.map (fun sd => (step :: sd.1, o.1 :: sd.2))))
              pure parts.flatten : Except String _) = Except.ok chunk ∧
            chunk ≠ [] ∧
            ∀ su ∈ chunk, ∃ st3, apply_action st (Action.mk su.1) = Except.ok st3 ∧
              st3.board.points.length = st.board.points.length ∧
              (st.board.points.length = N_POINTS → (∀ d ∈ avail, 1 ≤ d ∧ d ≤ 6) →
                ∀ q, st3.board.total_checkers_for q = st.board.total_checkers_for q) := by
          intro o ho
          obtain ⟨hoOpts, hoNe⟩ := List.mem_filter.mp ho
          obtain ⟨i, hiRange, hoEq⟩ := List.mem_map.mp hoOpts
          have hi : i < avail.length := List.mem_range.mp hiRange
          have ho1 : o.1 = avail.getD i 0 := by rw [← hoEq]
          have ho21 : o.2.1 = avail.eraseIdx i := by rw [← hoEq]
          have ho22 : o.2.2 = single_die_moves st (avail.getD i 0) := by rw [← hoEq]
          -- the inner per-step computation succeeds on every generated move
          have hstep : ∀ step ∈ o.2.2,
              ∃ part, (do
                let st2 ← apply_step st step
                let subs ← genCandFuel fuel st2 o.2.1
                pure (subs.map (fun sd => (step :: sd.1, o.1 :: sd.2)))
                  : Except String _) = Except.ok part ∧
              part ≠ [] ∧
              ∀ su ∈ part, ∃ st3, apply_action st (Action.mk su.1) = Except.ok st3 ∧
                st3.board.points.length = st.board.points.length ∧
                (st.board.points.length = N_POINTS → (∀ d ∈ avail, 1 ≤ d ∧ d ≤ 6) →
                  ∀ q, st3.board.total_checkers_for q
                    = st.board.total_checkers_for q) := by
            intro step hstepMem
            rw [ho22] at hstepMem
            obtain ⟨st2, hap, hpl, _, _, _, hlen, hcons⟩ := step_sound hstepMem
            obtain ⟨subs, hsubs, hsubsNe, hsubsProp⟩ := ih st2 o.2.1
            refine ⟨subs.map (fun sd => (step :: sd.1, o.1 :: sd.2)), ?_, ?_, ?_⟩
            · rw [hap, ok_bind_m, hsubs, ok_bind_m]
              rfl
            · simpa using hsubsNe
            · intro su hsu
              obtain ⟨sd, hsd, hsdEq⟩ := List.mem_map.mp hsu
              obtain ⟨st3, hap3, hlen3, hcons3⟩ := hsubsProp sd hsd
              refine ⟨st3, ?_, ?_, ?_⟩
              · rw [← hsdEq]
                rw [apply_action_cons, hap, ok_bind]
                exact hap3
              · rw [hlen3, hlen]
              · intro hWF hdice q
                have hd : 1 ≤ avail.getD i 0 ∧ avail.getD i 0 ≤ 6 := by
                  apply hdice
                  rw [List.getD_eq_getElem _ _ hi]
                  exact List.getElem_mem hi
                have hWF2 : st2.board.points.length = N_POINTS := by rw [hlen, hWF]
                have hdice2 : ∀ d ∈ o.2.1, 1 ≤ d ∧ d ≤ 6 := by
                  intro d hd2
                  apply hdice
                  rw [ho21] at hd2
                  exact List.eraseIdx_subset _ _ hd2
                rw [hcons3 hWF2 hdice2 q]
                exact hcons hWF hd.1 hd.2 q
          have hstepW : ∀ step ∈ o.2.2, ∃ part, (do
              let st2 ← apply_step st step
              let subs ← genCandFuel fuel st2 o.2.1
              pure (subs.map (fun sd => (step :: sd.1, o.1 :: sd.2)))
                : Except String _) = Except.ok part :=
            fun a ha => Exists.imp (fun part hp => hp.1) (hstep a ha)
          obtain ⟨parts, hparts, hpartsLen, hpartsMem⟩ := mapM_ok_exists hstepW
          refine ⟨parts.flatten, ?_, ?_, ?_⟩
          · rw [hparts, ok_bind_m]
            rfl
          · -- the option has at least one move, and every part is nonempty
            have : o.2.2 ≠ [] := by
              simpa [List.isEmpty_iff] using hoNe
            obtain ⟨m, hm⟩ := List.exists_mem_of_ne_nil _ this
            have hplen : parts ≠ [] := by
              intro hp
              rw [hp] at hpartsLen
              have h0 : o.2.2.length = 0 := by simpa using hpartsLen.symm
              exact ‹o.2.2 ≠ []› (List.length_eq_zero.mp h0)
            obtain ⟨p, hp⟩ := List.exists_mem_of_ne_nil _ hplen
            obtain ⟨a, ha, hga⟩ := hpartsMem p hp
            obtain ⟨part', hpart', hpartNe, _⟩ := hstep a ha
            have : p = part' := by
              rw [hga] at hpart'
              exact (Except.ok.injEq _ _).mp hpart'
            subst this
            obtain ⟨x, hx⟩ := List.exists_mem_of_ne_nil _ hpartNe
            exact List.ne_nil_of_mem (List.mem_flatten.mpr ⟨p, hp, hx⟩)
          · intro su hsu
            obtain ⟨p, hp, hsup⟩ := List.mem_flatten.mp hsu
            obtain ⟨a, ha, hga⟩ := hpartsMem p hp
            obtain ⟨part', hpart', _, hpartProp⟩ := hstep a ha
            have : p = part' := by
              rw [hga] at hpart'
              exact (Except.ok.injEq _ _).mp hpart'
            subst this
            exact hpartProp su hsup
        have hchunkW : ∀ o ∈ ((List.range avail.length).map (fun i =>
            (avail.getD i 0, avail.eraseIdx i,
             single_die_moves st (avail.getD i 0)))).filter
              (fun o => !o.2.2.isEmpty),
            ∃ chunk, (do
              let parts ← o.2.2.mapM (fun step => do
                let st2 ← apply_step st step
                let subs ← genCandFuel fuel st2 o.2.1
                pure (subs.map (fun sd => (step :: sd.1, o.1 :: sd.2))))
              pure parts.flatten : Except String _) = Except.ok chunk :=
          fun a ha => Exists.imp (fun chunk hp => hp.1) (hchunk a ha)
        obtain ⟨chunks, hchunks, hchunksLen, hchunksMem⟩ := mapM_ok_exists hchunkW
        refine ⟨chunks.flatten, ?_, ?_, ?_⟩
        · rw [hchunks, ok_bind_m]
          rfl
        · have hne : ((List.range avail.length).map (fun i =>
              (avail.getD i 0, avail.eraseIdx i,
               single_die_moves st (avail.getD i 0)))).filter
                (fun o => !o.2.2.isEmpty) ≠ [] := hact
          obtain ⟨o, ho⟩ := List.exists_mem_of_ne_nil _ hne
          have hclen : chunks ≠ [] := by
            intro hc
            rw [hc] at hchunksLen
            exact hne (List.length_eq_zero.mp (by simpa using hchunksLen.symm))
          obtain ⟨c, hc⟩ := List.exists_mem_of_ne_nil _ hclen
          obtain ⟨o', ho', hgo'⟩ := hchunksMem c hc
          obtain ⟨chunk', hchunk', hchunkNe, _⟩ := hchunk o' ho'
          have : c = chunk' := by
            rw [hgo'] at hchunk'
            exact (Except.ok.injEq _ _).mp hchunk'
          subst this
          obtain ⟨x, hx⟩ := List.exists_mem_of_ne_nil _ hchunkNe
          exact List.ne_nil_of_mem (List.mem_flatten.mpr ⟨c, hc, hx⟩)
        · intro su hsu
          obtain ⟨c, hc, hsuc⟩ := List.mem_flatten.mp hsu
          obtain ⟨o', ho', hgo'⟩ := hchunksMem c hc
          obtain ⟨chunk', hchunk', _, hchunkProp⟩ := hchunk o' ho'
          have : c = chunk' := by
            rw [hgo'] at hchunk'
            exact (Except.ok.injEq _ _).mp hchunk'
          subst this
          exact hchunkProp su hsuc

/-! ### The filtering tail of `legal_actions` as a pure function -/

/-- The pure filtering performed by `legal_actions` after candidate
enumeration (max-length filter, higher-die preference, deduplication). -/
def legalFilter (d1 d2 : Nat) (raw_candidates : List (List Step × List Nat)) :
    List Action :=
  if raw_candidates.isEmpty then []
  else
    let max_len := (raw_candidates.map (fun sd => sd.1.length)).foldl Nat.max 0
    if max_len = 0 then []
    else
      let best0 := raw_candidates.filter (fun sd => sd.1.length == max_len)
      let best :=
        if max_len = 1 ∧ d1 ≠ d2 then
          let high := Nat.max d1 d2
          let with_high := best0.filter (fun sd => decide (high ∈ sd.2))
          if with_high.isEmpty then best0 else with_high
        else best0
      dedupFirst (best.map (fun sd => Action.mk sd.1))

theorem legal_actions_eq_filter (st : GameState) (d1 d2 : Nat) :
    legal_actions st (d1, d2)
      = (genCand st (expand_dice d1 d2)).bind
          (fun raw => Except.ok (legalFilter d1 d2 raw)) := by
  show (genCand st (expand_dice d1 d2)) >>= _ = _
  cases genCand st (expand_dice d1 d2) with
  | error e => rfl
  | ok raw =>
      show (if raw.isEmpty then Except.ok [] else _)
        = Except.ok (legalFilter d1 d2 raw)
      unfold legalFilter
      dsimp only
      split_ifs <;> rfl

theorem mem_foldl_dedup (l acc : List Action) (x : Action) :
    x ∈ l.foldl (fun acc a => if a ∈ acc then acc else acc ++ [a]) acc ↔
      x ∈ acc ∨ x ∈ l := by
  induction l generalizing acc with
  | nil => simp
  | cons a as ih =>
      simp only [List.foldl_cons]
      rw [ih]
      by_cases ha : a ∈ acc
      · rw [if_pos ha]
        constructor
        · rintro (h | h)
          · exact Or.inl h
          · exact Or.inr (List.mem_cons_of_mem _ h)
        · rintro (h | h)
          · exact Or.inl h
          · rcases List.mem_cons.mp h with rfl | h2
            · exact Or.inl ha
            · exact Or.inr h2
      · rw [if_neg ha]
        constructor
        · rintro (h | h)
          · rcases List.mem_append.mp h with h1 | h1
            · exact Or.inl h1
            · exact Or.inr (by
                rw [List.mem_singleton.mp h1]
                exact List.mem_cons_self _ _)
          · exact Or.inr (List.mem_cons_of_mem _ h)
        · rintro (h | h)
          · exact Or.inl (List.mem_append.mpr (Or.inl h))
          · rcases List.mem_cons.mp h with rfl | h2
            · exact Or.inl (List.mem_append.mpr (Or.inr (List.mem_singleton.mpr rfl)))
            · exact Or.inr h2

theorem mem_dedupFirst (l : List Action) (a : Action) :
    a ∈ dedupFirst l ↔ a ∈ l := by
  unfold dedupFirst
  rw [mem_foldl_dedup]
  simp

theorem foldl_max_init_le : ∀ (l : List Nat) (a : Nat), a ≤ l.foldl Nat.max a := by
  intro l
  induction l with
  | nil => intro a; simp
  | cons x xs ih =>
      intro a
      calc a ≤ Nat.max a x := Nat.le_max_left a x
      _ ≤ (x :: xs).foldl Nat.max a := by
            simpa only [List.foldl_cons] using ih (Nat.max a x)

theorem le_foldl_max_of_mem : ∀ {l : List Nat} {x : Nat} (a : Nat), x ∈ l →
    x ≤ l.foldl Nat.max a := by
  intro l
  induction l with
  | nil => intro x a h; simp at h
  | cons y ys ih =>
      intro x a h
      rcases List.mem_cons.mp h with rfl | h2
      · calc x ≤ Nat.max a x := Nat.le_max_right a x
        _ ≤ (x :: ys).foldl Nat.max a := by
              simpa only [List.foldl_cons] using foldl_max_init_le ys (Nat.max a x)
      · simpa only [List.foldl_cons] using ih (Nat.max a y) h2

theorem foldl_max_cases : ∀ (l : List Nat) (a : Nat),
    l.foldl Nat.max a = a ∨ l.foldl Nat.max a ∈ l := by
  intro l
  induction l with
  | nil => intro a; left; rfl
  | cons x xs ih =>
      intro a
      rcases ih (Nat.max a x) with h | h
      · simp only [List.foldl_cons] at *
        rw [h]
        rcases Nat.le_total a x with hax | hax
        · right
          rw [Nat.max_eq_max, Nat.max_eq_right hax]
          exact List.mem_cons_self _ _
        · left
          rw [Nat.max_eq_max, Nat.max_eq_left hax]
      · right
        simp only [List.foldl_cons] at *
        exact List.mem_cons_of_mem _ h

/-- Everything `legalFilter` keeps comes from a raw candidate of maximal
length. -/
theorem mem_legalFilter_spec {d1 d2 : Nat} {raw : List (List Step × List Nat)}
    {a : Action} (ha : a ∈ legalFilter d1 d2 raw) :
    ∃ su ∈ raw, a = Action.mk su.1 ∧
      su.1.length = (raw.map (fun sd => sd.1.length)).foldl Nat.max 0 := by
  unfold legalFilter at ha
  by_cases h1 : raw.isEmpty
  · rw [if_pos h1] at ha
    exact absurd ha (List.not_mem_nil a)
  · rw [if_neg h1] at ha
    dsimp only at ha
    by_cases h2 : (raw.map (fun sd => sd.1.length)).foldl Nat.max 0 = 0
    · rw [if_pos h2] at ha
      exact absurd ha (List.not_mem_nil a)
    · rw [if_neg h2] at ha
      by_cases h3 : (raw.map (fun sd => sd.1.length)).foldl Nat.max 0 = 1 ∧ d1 ≠ d2
      · rw [if_pos h3] at ha
        by_cases h4 : ((raw.filter (fun sd =>
            sd.1.length == (raw.map (fun sd => sd.1.length)).foldl Nat.max 0)).filter
              (fun sd => decide (Nat.max d1 d2 ∈ sd.2))).isEmpty
        · rw [if_pos h4] at ha
          rw [mem_dedupFirst] at ha
          obtain ⟨su, hsu, hEq⟩ := List.mem_map.mp ha
          refine ⟨su, (List.mem_filter.mp hsu).1, hEq.symm, ?_⟩
          simpa using (List.mem_filter.mp hsu).2
        · rw [if_neg h4] at ha
          rw [mem_dedupFirst] at ha
          obtain ⟨su, hsu, hEq⟩ := List.mem_map.mp ha
          refine ⟨su, (List.mem_filter.mp (List.mem_filter.mp hsu).1).1, hEq.symm, ?_⟩
          simpa using (List.mem_filter.mp (List.mem_filter.mp hsu).1).2
      · rw [if_neg h3] at ha
        rw [mem_dedupFirst] at ha
        obtain ⟨su, hsu, hEq⟩ := List.mem_map.mp ha
        refine ⟨su, (List.mem_filter.mp hsu).1, hEq.symm, ?_⟩
        simpa using (List.mem_filter.mp hsu).2

/-- Bridge: given a successful enumeration, `legal_actions` succeeds and
returns exactly the filtered candidates. -/
theorem legal_actions_ok_of_genCand {st : GameState} {d1 d2 : Nat}
    {raw : List (List Step × List Nat)}
    (hraw : genCand st (expand_dice d1 d2) = Except.ok raw) :
    legal_actions st (d1, d2) = Except.ok (legalFilter d1 d2 raw) := by
  rw [legal_actions_eq_filter, hraw, ok_bind]

/-! ### C1: use-maximum-dice policy -/

/-- Claim C1: with `raw` the terminal move sequences enumerated for the
given position and dice pair, and `ml` the fold computing the maximum
number of dice consumed by any of them, (i) `ml` is an upper bound on all
sequence lengths and is attained when nonzero, (ii) if `ml = 0` then
`legal_actions` returns the empty list, and (iii) every returned Turn has
exactly `ml` steps. -/
theorem C1_legalTurns_use_maximum_dice
    (st : GameState) (d1 d2 : Nat) (raw : List (List Step × List Nat))
    (acts : List Action)
    (hraw : genCand st (expand_dice d1 d2) = Except.ok raw)
    (hacts : legal_actions st (d1, d2) = Except.ok acts) :
    (∀ su ∈ raw, su.1.length ≤ (raw.map (fun sd => sd.1.length)).foldl Nat.max 0) ∧
    ((raw.map (fun sd => sd.1.length)).foldl Nat.max 0 ≠ 0 →
      ∃ su ∈ raw, su.1.length = (raw.map (fun sd => sd.1.length)).foldl Nat.max 0) ∧
    ((raw.map (fun sd => sd.1.length)).foldl Nat.max 0 = 0 → acts = []) ∧
    (∀ a ∈ acts, a.steps.length
      = (raw.map (fun sd => sd.1.length)).foldl Nat.max 0) := by
  have hb := legal_actions_ok_of_genCand hraw
  rw [hacts] at hb
  have hActs : acts = legalFilter d1 d2 raw := by
    exact (Except.ok.injEq _ _).mp hb
  subst hActs
  refine ⟨?_, ?_, ?_, ?_⟩
  · intro su hsu
    exact le_foldl_max_of_mem 0 (List.mem_map_of_mem (fun sd => sd.1.length) hsu)
  · intro hml
    rcases foldl_max_cases (raw.map (fun sd => sd.1.length)) 0 with h | h
    · exact absurd h hml
    · obtain ⟨su, hsu, hEq⟩ := List.mem_map.mp h
      exact ⟨su, hsu, hEq⟩
  · intro hml
    unfold legalFilter
    by_cases h1 : raw.isEmpty
    · rw [if_pos h1]
    · rw [if_neg h1]
      dsimp only
      rw [if_pos hml]
  · intro a ha
    obtain ⟨su, _, hEq, hlen⟩ := mem_legalFilter_spec ha
    rw [hEq]
    exact hlen

/-- Scenario board for the C1 and C4 witnesses: `P1` has a single checker
on index 7; `P2` blocks indices 6 and 4.  With dice (1,2) only the 2-pip
move 7→5 is playable, and nothing can follow it. -/
def hdBoard : Board :=
  { points := [0, 0, 0, 0, -2, 0, -2, 1, 0, 0, 0, 0,
               0, 0, 0, 0, 0, 0, 0, 0, 0, 0, 0, 0],
    bar := fun _ => 0,
    borne_off := fun _ => 0 }

/-- Scenario state for the C1 and C4 witnesses. -/
def hdState : GameState :=
  { board := hdBoard, current_player := .P1, dice := none,
    turn_number := 0, history := [] }

/-- The single step available in `hdState` with dice (1,2). -/
def hdStep : Step :=
  { from_point := some 7, to_point := some 5, hit_index := none }

theorem C1_witness : (Action.mk [hdStep]).steps.length = 1 :=
  (C1_legalTurns_use_maximum_dice hdState 1 2 [([hdStep], [2])]
      [Action.mk [hdStep]] rfl rfl).2.2.2
    (Action.mk [hdStep]) (List.mem_singleton.mpr rfl)

/-! ### C3: bar entry scenario (corrected: the entry index is 21, not 20) -/

/-- An otherwise empty board on which `P1` (side A) has one checker on the
bar. -/
def c3Board : Board :=
  { points := List.replicate 24 0,
    bar := fun p => if p = .P1 then 1 else 0,
    borne_off := fun _ => 0 }

/-- The C3 scenario state. -/
def c3State : GameState :=
  { board := c3Board, current_player := .P1, dice := none,
    turn_number := 0, history := [] }

/-- Claim C3 as stated is false: on the scenario board, `single_die_moves`
with die 3 enters on index 21 (`24 - die`), not on index 20 as the spec
claims; in particular no produced move targets index 20. -/
theorem C3_counterexample :
    single_die_moves c3State 3
      = [{ from_point := none, to_point := some 21, hit_index := none }] ∧
    ¬ ∃ s ∈ single_die_moves c3State 3, s.to_point = some 20 := by
  constructor
  · decide
  · decide

/-- Claim C3 amended: on any position where side A (`P1`) is to move with
a checker on the bar and entry point 21 is empty, `movesForDie` with die 3
yields exactly one Move, from the bar to index `24 - 3 = 21`. -/
theorem C3_amended_bar_entry (st : GameState)
    (hpl : st.current_player = .P1)
    (hbar : 0 < st.board.bar .P1)
    (hempty : st.board.points.getD 21 0 = 0) :
    single_die_moves st 3
      = [{ from_point := none, to_point := some 21, hit_index := none }] := by
  have howner : st.board.owner_of_point 21 = 0 := by
    unfold Board.owner_of_point
    rw [hempty]
    rfl
  simp only [single_die_moves]
  rw [hpl]
  have hdest : entry_point_from_bar Player.P1 3 = 21 := rfl
  rw [hdest, if_pos hbar, if_pos (Or.inl howner),
    if_neg (by simp [howner])]

theorem C3_witness :
    single_die_moves c3State 3
      = [{ from_point := none, to_point := some 21, hit_index := none }] :=
  C3_amended_bar_entry c3State rfl (by decide) (by decide)

/-! ### C4: higher-die preference -/

/-- Claim C4: for a non-double roll whose maximum playable sequence length
is 1, if some length-1 candidate uses the larger die then `legal_actions`
keeps exactly the candidates that use the larger die, and otherwise it
keeps all length-1 candidates. -/
theorem C4_higher_die_preference
    (st : GameState) (d1 d2 : Nat) (raw : List (List Step × List Nat))
    (acts : List Action)
    (hne : d1 ≠ d2)
    (hraw : genCand st (expand_dice d1 d2) = Except.ok raw)
    (hml : (raw.map (fun sd => sd.1.length)).foldl Nat.max 0 = 1)
    (hacts : legal_actions st (d1, d2) = Except.ok acts) :
    ((∃ su ∈ raw, su.1.length = 1 ∧ Nat.max d1 d2 ∈ su.2) →
       (∀ a ∈ acts, ∃ su ∈ raw,
          su.1.length = 1 ∧ Nat.max d1 d2 ∈ su.2 ∧ a = Action.mk su.1) ∧
       (∀ su ∈ raw, su.1.length = 1 → Nat.max d1 d2 ∈ su.2 →
          Action.mk su.1 ∈ acts)) ∧
    ((¬ ∃ su ∈ raw, su.1.length = 1 ∧ Nat.max d1 d2 ∈ su.2) →
       ∀ su ∈ raw, su.1.length = 1 → Action.mk su.1 ∈ acts) := by
  have hb := legal_actions_ok_of_genCand hraw
  rw [hacts] at hb
  have hActs : acts = legalFilter d1 d2 raw := (Except.ok.injEq _ _).mp hb
  subst hActs
  have hrawNe : ¬ raw.isEmpty = true := by
    intro h
    rw [List.isEmpty_iff.mp h] at hml
    simp at hml
  unfold legalFilter
  rw [if_neg hrawNe]
  dsimp only
  rw [if_neg (by rw [hml]; exact one_ne_zero), if_pos ⟨hml, hne⟩]
  constructor
  · intro ⟨su0, hsu0, hlen0, hhigh0⟩
    have hsu0best : su0 ∈ raw.filter (fun sd =>
        sd.1.length == (raw.map (fun sd => sd.1.length)).foldl Nat.max 0) :=
      List.mem_filter.mpr ⟨hsu0, by rw [hml]; simpa using hlen0⟩
    have hsu0high : su0 ∈ (raw.filter (fun sd =>
        sd.1.length == (raw.map (fun sd => sd.1.length)).foldl Nat.max 0)).filter
          (fun sd => decide (Nat.max d1 d2 ∈ sd.2)) :=
      List.mem_filter.mpr ⟨hsu0best, by simpa using hhigh0⟩
    have hWhNe : ¬ ((raw.filter (fun sd =>
        sd.1.length == (raw.map (fun sd => sd.1.length)).foldl Nat.max 0)).filter
          (fun sd => decide (Nat.max d1 d2 ∈ sd.2))).isEmpty = true := by
      intro h
      rw [List.isEmpty_iff.mp h] at hsu0high
      exact absurd hsu0high (List.not_mem_nil su0)
    rw [if_neg hWhNe]
    constructor
    · intro a ha
      rw [mem_dedupFirst] at ha
      obtain ⟨su, hsu, hEq⟩ := List.mem_map.mp ha
      obtain ⟨hsuB, hsuH⟩ := List.mem_filter.mp hsu
      obtain ⟨hsuR, hsuL⟩ := List.mem_filter.mp hsuB
      refine ⟨su, hsuR, ?_, by simpa using hsuH, hEq.symm⟩
      rw [← hml]
      simpa using hsuL
    · intro su hsu hlen hhigh
      rw [mem_dedupFirst]
      refine List.mem_map_of_mem _ (List.mem_filter.mpr ?_)
      exact ⟨List.mem_filter.mpr ⟨hsu, by rw [hml]; simpa using hlen⟩,
        by simpa using hhigh⟩
  · intro hnone
    have hWhE : ((raw.filter (fun sd =>
        sd.1.length == (raw.map (fun sd => sd.1.length)).foldl Nat.max 0)).filter
          (fun sd => decide (Nat.max d1 d2 ∈ sd.2))).isEmpty = true := by
      rw [List.isEmpty_iff]
      rw [List.eq_nil_iff_forall_not_mem]
      intro su hsu
      obtain ⟨hsuB, hsuH⟩ := List.mem_filter.mp hsu
      obtain ⟨hsuR, hsuL⟩ := List.mem_filter.mp hsuB
      refine hnone ⟨su, hsuR, ?_, by simpa using hsuH⟩
      rw [← hml]
      simpa using hsuL
    rw [if_pos hWhE]
    intro su hsu hlen
    rw [mem_dedupFirst]
    exact List.mem_map_of_mem _
      (List.mem_filter.mpr ⟨hsu, by rw [hml]; simpa using hlen⟩)

theorem C4_witness :
    Action.mk [hdStep] ∈ [Action.mk [hdStep]] :=
  ((C4_higher_die_preference hdState 1 2 [([hdStep], [2])] [Action.mk [hdStep]]
      (by decide) rfl (by decide) rfl).1
    ⟨([hdStep], [2]), List.mem_singleton.mpr rfl, rfl, by decide⟩).2
    ([hdStep], [2]) (List.mem_singleton.mpr rfl) rfl (by decide)

/-! ### C5: bear-off gating -/

theorem posPart_nonneg (p : Player) (x : Int) : 0 ≤ posPart p x := by
  unfold posPart
  split_ifs <;> omega

theorem posPart_pos_of_owner {b : Board} {i : Nat} {p : Player}
    (h : b.owner_of_point i = p.val) : 1 ≤ posPart p (b.points.getD i 0) := by
  have := val_pos_of_owner h
  unfold posPart
  split_ifs <;> omega

theorem count_eq_posPart {b : Board} {i : Nat} {p : Player}
    (h : b.owner_of_point i = p.val) :
    b.count_on_point i = posPart p (b.points.getD i 0) := by
  have := val_pos_of_owner h
  unfold Board.count_on_point posPart
  cases p <;> simp only [Player.val, mul_one, mul_neg_one] at * <;>
    split_ifs <;> omega

theorem posPart_eq_zero_of_not_owner {b : Board} {i : Nat} {p : Player}
    (h : b.owner_of_point i ≠ p.val) : posPart p (b.points.getD i 0) = 0 := by
  have hv : b.points.getD i 0 * p.val ≤ 0 := by
    simp only [Board.owner_of_point] at h
    cases p <;> simp only [Player.val, mul_one, mul_neg_one] at * <;>
      split_ifs at h <;> omega
  unfold posPart
  split_ifs <;> omega

theorem sum_map_eq_range : ∀ (l : List Int) (f : Int → Int),
    (l.map f).sum
      = ((List.range l.length).map (fun i => f (l.getD i 0))).sum := by
  intro l
  induction l with
  | nil => intro f; rfl
  | cons x xs ih =>
      intro f
      rw [List.length_cons, List.range_succ_eq_map]
      simp only [List.map_cons, List.map_map, List.sum_cons, List.getD_cons_zero,
        Function.comp, List.getD_cons_succ]
      rw [ih f]
      congr 1

theorem sum_map_sub : ∀ (l : List Nat) (f g : Nat → Int),
    (l.map (fun i => f i - g i)).sum = (l.map f).sum - (l.map g).sum := by
  intro l
  induction l with
  | nil => intro f g; simp
  | cons x xs ih =>
      intro f g
      simp only [List.map_cons, List.sum_cons, ih f g]
      omega

theorem sum_zero_of_nonneg {l : List Int} (h : ∀ x ∈ l, 0 ≤ x)
    (hs : l.sum = 0) : ∀ x ∈ l, x = 0 :=
  fun x hx => le_antisymm (hs ▸ List.single_le_sum h x hx) (h x hx)

/-- Semantic reading of the `all_in_home` board scan (for a mover with an
empty bar): it answers whether every point owned by the player lies in
the player's home range. -/
theorem all_in_home_iff_sem {b : Board} {pl : Player}
    (hWF : b.points.length = N_POINTS) (hbar : b.bar pl = 0) :
    all_in_home b pl = true ↔
      ∀ idx, idx < N_POINTS → b.owner_of_point idx = pl.val →
        idx ∈ home_board_range pl := by
  have htotal : b.total_checkers_for pl
      = (b.points.map (posPart pl)).sum + b.borne_off pl := by
    rw [total_checkers_eq, hbar]
    omega
  have hrange : (b.points.map (posPart pl)).sum
      = ((List.range N_POINTS).map (fun i => posPart pl (b.points.getD i 0))).sum := by
    rw [sum_map_eq_range, hWF]
  unfold all_in_home
  constructor
  · intro h
    by_cases hoff : b.borne_off pl = b.total_checkers_for pl
    · -- borne off everything: no point is owned at all
      intro idx hidx hown
      exfalso
      have hS : (b.points.map (posPart pl)).sum = 0 := by omega
      have h0 : posPart pl (b.points.getD idx 0) = 0 := by
        rcases Nat.lt_or_ge idx b.points.length with hlt | hge
        · refine sum_zero_of_nonneg ?_ hS _ ?_
          · intro x hx
            obtain ⟨y, _, hy⟩ := List.mem_map.mp hx
            rw [← hy]
            exact posPart_nonneg pl y
          · rw [List.getD_eq_getElem _ _ hlt]
            exact List.mem_map_of_mem _ (List.getElem_mem hlt)
        · have hd : b.points.getD idx 0 = 0 := List.getD_eq_default _ _ (by omega)
          rw [hd]
          exact posPart_zero pl
      have := posPart_pos_of_owner hown
      omega
    · rw [if_neg hoff] at h
      have hin : ((List.range N_POINTS).map (fun idx =>
          if b.owner_of_point idx = pl.val ∧ idx ∈ home_board_range pl then
            b.count_on_point idx
          else 0)).sum + b.borne_off pl = b.total_checkers_for pl :=
        of_decide_eq_true h
      intro idx hidx hown
      by_contra hnothome
      -- the pointwise gap between posPart and the home-restricted count
      -- is nonnegative and at least 1 at idx, yet its sum must be 0
      have hdiff : ((List.range N_POINTS).map (fun i =>
          posPart pl (b.points.getD i 0) -
            (if b.owner_of_point i = pl.val ∧ i ∈ home_board_range pl then
              b.count_on_point i
            else 0))).sum = 0 := by
        rw [sum_map_sub]
        omega
      have hterm : posPart pl (b.points.getD idx 0) -
          (if b.owner_of_point idx = pl.val ∧ idx ∈ home_board_range pl then
            b.count_on_point idx
          else 0) = 0 := by
        refine sum_zero_of_nonneg ?_ hdiff _
          (List.mem_map_of_mem _ (List.mem_range.mpr hidx))
        intro x hx
        obtain ⟨i, _, hi⟩ := List.mem_map.mp hx
        rw [← hi]
        by_cases hc : b.owner_of_point i = pl.val ∧ i ∈ home_board_range pl
        · rw [if_pos hc, count_eq_posPart hc.1]
          omega
        · rw [if_neg hc]
          have := posPart_nonneg pl (b.points.getD i 0)
          omega
      rw [if_neg (fun hc => hnothome hc.2)] at hterm
      have := posPart_pos_of_owner hown
      omega
  · intro hsem
    by_cases hoff : b.borne_off pl = b.total_checkers_for pl
    · rw [if_pos hoff]
    · rw [if_neg hoff]
      refine decide_eq_true ?_
      have : ((List.range N_POINTS).map (fun idx =>
          if b.owner_of_point idx = pl.val ∧ idx ∈ home_board_range pl then
            b.count_on_point idx
          else 0)).sum
          = ((List.range N_POINTS).map (fun i =>
              posPart pl (b.points.getD i 0))).sum := by
        congr 1
        apply List.map_congr_left
        intro i hi
        by_cases hown : b.owner_of_point i = pl.val
        · rw [if_pos ⟨hown, hsem i (List.mem_range.mp hi) hown⟩]
          exact count_eq_posPart hown
        · rw [if_neg (fun hc => hown hc.1)]
          exact (posPart_eq_zero_of_not_owner hown).symm
      omega

/-- Claim C5: with no mover checker on the bar, (i) for an origin the
mover owns whose destination overflows the board, a bear-off move is
emitted exactly when the origin is in the mover's home range and every
point the mover owns lies in the home range; (ii) when the mover owns a
point outside the home range, no emitted move bears off; (iii) in-range
unblocked moves are still offered. -/
theorem C5_bear_off_gating (st : GameState) (die : Nat)
    (hWF : st.board.points.length = N_POINTS)
    (hbar : st.board.bar st.current_player = 0) :
    (∀ o, o < N_POINTS →
       st.board.owner_of_point o = st.current_player.val →
       (stepTarget st die o < 0 ∨ (N_POINTS : Int) ≤ stepTarget st die o) →
       (Step.mk (some o) none none ∈ single_die_moves st die ↔
         o ∈ home_board_range st.current_player ∧
         ∀ idx, idx < N_POINTS →
           st.board.owner_of_point idx = st.current_player.val →
           idx ∈ home_board_range st.current_player)) ∧
    ((∃ out, out < N_POINTS ∧
        st.board.owner_of_point out = st.current_player.val ∧
        out ∉ home_board_range st.current_player) →
      ∀ s ∈ single_die_moves st die, s.to_point ≠ none) ∧
    (∀ idx, idx < N_POINTS →
       st.board.owner_of_point idx = st.current_player.val →
       0 ≤ stepTarget st die idx → stepTarget st die idx < (N_POINTS : Int) →
       ¬ blockedCond st (stepTarget st die idx).toNat →
       normalStep st die idx ∈ single_die_moves st die) := by
  have hbar' : ¬ 0 < st.board.bar st.current_player := by
    rw [hbar]
    exact lt_irrefl 0
  refine ⟨?_, ?_, ?_⟩
  · intro o ho hown hover
    constructor
    · intro hmem
      rcases mem_single_die_moves hmem with ⟨hb, _, _⟩ |
        ⟨_, idx, hidx, hown2, ⟨_, hhome, hall, hstep⟩ | ⟨_, _, _, hstep⟩⟩
      · exact absurd hb hbar'
      · have hio : idx = o := by
          have := congrArg Step.from_point hstep
          simpa using this.symm
        subst hio
        exact ⟨hhome, (all_in_home_iff_sem hWF hbar).mp hall⟩
      · exfalso
        have := congrArg Step.to_point hstep
        simp [normalStep] at this
    · intro ⟨hhome, hsem⟩
      exact bearOffStep_mem hbar' ho hown hover hhome
        ((all_in_home_iff_sem hWF hbar).mpr hsem)
  · intro ⟨out, hout, hownOut, hnotHome⟩ s hs
    rcases mem_single_die_moves hs with ⟨hb, _, _⟩ |
      ⟨_, idx, hidx, hown2, ⟨_, _, hall, hstep⟩ | ⟨_, _, _, hstep⟩⟩
    · exact absurd hb hbar'
    · exact absurd ((all_in_home_iff_sem hWF hbar).mp hall out hout hownOut)
        hnotHome
    · rw [hstep]
      simp [normalStep]
  · intro idx hidx hown h0 h1 hblk
    exact normalStep_mem hbar' hidx hown h0 h1 hblk

/-- Scenario board for the C5 witness: `P1` owns index 3 (inside its home
0..5) and index 10 (outside), nothing else is occupied. -/
def c5Board : Board :=
  { points := [0, 0, 0, 1, 0, 0, 0, 0, 0, 0, 1, 0,
               0, 0, 0, 0, 0, 0, 0, 0, 0, 0, 0, 0],
    bar := fun _ => 0,
    borne_off := fun _ => 0 }

/-- The C5 witness state. -/
def c5State : GameState :=
  { board := c5Board, current_player := .P1, dice := none,
    turn_number := 0, history := [] }

theorem C5_witness :
    normalStep c5State 5 10 ∈ single_die_moves c5State 5 ∧
    (normalStep c5State 5 10).to_point ≠ none := by
  have h := C5_bear_off_gating c5State 5 (by decide) (by decide)
  have hmem := h.2.2 10 (by decide) (by decide) (by decide) (by decide)
    (by decide)
  exact ⟨hmem, h.2.1 ⟨10, by decide, by decide, by decide⟩ _ hmem⟩

/-! ### C2: checker conservation -/

/-- `Board.initial` from board.py: the standard starting position
(`P1`: 2 on point 24, 5 on 13, 3 on 8, 5 on 6; `P2`: 2 on 1, 5 on 12,
3 on 17, 5 on 19), written as the resulting 24-entry array. -/
def Board.initial : Board :=
  { points := [-2, 0, 0, 0, 0, 5, 0, 3, 0, 0, 0, -5,
               5, 0, 0, 0, -3, 0, -5, 0, 0, 0, 0, 2],
    bar := fun _ => 0,
    borne_off := fun _ => 0 }

/-- `GameState.initial` from state.py. -/
def GameState.initial : GameState :=
  { board := Board.initial, current_player := .P1, dice := none,
    turn_number := 0, history := [] }

theorem ok_inj {α : Type} {a b : α} (h : (Except.ok a : Except String α) = Except.ok b) :
    a = b := (Except.ok.injEq _ _).mp h

/-- Claim C2: on a 24-point position where each side's points + bar +
borne-off checkers sum to 15, applying any `single_die_moves`-legal move
(with a die in 1..6), or any whole Turn returned by `legal_actions` for a
dice pair in 1..6, preserves the 15-checker invariant for both sides. -/
theorem C2_conservation (st : GameState)
    (hWF : st.board.points.length = N_POINTS)
    (hinv : ∀ q, st.board.total_checkers_for q = N_CHECKERS_PER_PLAYER) :
    (∀ die step st2, 1 ≤ die → die ≤ 6 →
       step ∈ single_die_moves st die →
       apply_step st step = Except.ok st2 →
       ∀ q, st2.board.total_checkers_for q = N_CHECKERS_PER_PLAYER) ∧
    (∀ d1 d2 acts a st2,
       1 ≤ d1 → d1 ≤ 6 → 1 ≤ d2 → d2 ≤ 6 →
       legal_actions st (d1, d2) = Except.ok acts → a ∈ acts →
       apply_action st a = Except.ok st2 →
       ∀ q, st2.board.total_checkers_for q = N_CHECKERS_PER_PLAYER) := by
  constructor
  · intro die step st2 h1 h6 hmem hap q
    obtain ⟨st2', hap', _, _, _, _, _, hcons⟩ := step_sound hmem
    rw [hap] at hap'
    rw [ok_inj hap', hcons hWF h1 h6 q]
    exact hinv q
  · intro d1 d2 acts a st2 hd1a hd1b hd2a hd2b hacts hmem hap q
    obtain ⟨raw, hraw, _, hprop⟩ :=
      genCandFuel_sound (expand_dice d1 d2).length st (expand_dice d1 d2)
    have hraw' : genCand st (expand_dice d1 d2) = Except.ok raw := hraw
    have hb := legal_actions_ok_of_genCand hraw'
    rw [hacts] at hb
    have hActs : acts = legalFilter d1 d2 raw := ok_inj hb
    subst hActs
    obtain ⟨su, hsu, haEq, _⟩ := mem_legalFilter_spec hmem
    obtain ⟨st2', hap', hlen', hcons'⟩ := hprop su hsu
    rw [haEq] at hap
    rw [hap] at hap'
    have hdice : ∀ d ∈ expand_dice d1 d2, 1 ≤ d ∧ d ≤ 6 := by
      intro d hd
      unfold expand_dice at hd
      split_ifs at hd <;> simp only [List.mem_cons, List.not_mem_nil,
        or_false] at hd
      · rcases hd with rfl | rfl | rfl | rfl <;> omega
      · rcases hd with rfl | rfl <;> omega
    rw [ok_inj hap', hcons' hWF hdice q]
    exact hinv q

/-- The move 6→3 (indices 5→2) available to `P1` with die 3 at the start. -/
def c2Step : Step := { from_point := some 5, to_point := some 2, hit_index := none }

/-- The position after playing `c2Step` from the start. -/
def c2Next : GameState :=
  { board := { points := [-2, 0, 1, 0, 0, 4, 0, 3, 0, 0, 0, -5,
                          5, 0, 0, 0, -3, 0, -5, 0, 0, 0, 0, 2],
               bar := Board.initial.bar,
               borne_off := Board.initial.borne_off },
    current_player := .P1, dice := none, turn_number := 0, history := [] }

theorem C2_witness :
    c2Next.board.total_checkers_for .P1 = N_CHECKERS_PER_PLAYER ∧
    c2Next.board.total_checkers_for .P2 = N_CHECKERS_PER_PLAYER := by
  have h := (C2_conservation GameState.initial (by decide)
      (by intro q; cases q <;> decide)).1 3 c2Step c2Next
      (by decide) (by decide) (by decide) (by rfl)
  exact ⟨h .P1, h .P2⟩

/-! ### C6: hit bookkeeping -/

theorem move_checker_bar_fail {b : Board} {pl : Player} {tp : Option Nat}
    (h : b.bar pl ≤ 0) :
    b.move_checker pl none tp
      = Except.error "No checker for player on bar to move." := by
  simp only [Board.move_checker]
  rw [if_pos h]
  rfl

theorem move_checker_own_fail {b : Board} {pl : Player} {i : Nat} {tp : Option Nat}
    (h : b.owner_of_point i ≠ pl.val) :
    b.move_checker pl (some i) tp
      = Except.error "Source point does not belong to player." := by
  simp only [Board.move_checker]
  rw [if_pos h]
  rfl

theorem hit_checker_at_fail {b : Board} {vic : Player} {i : Nat}
    (h : b.owner_of_point i ≠ vic.val) :
    b.hit_checker_at vic i
      = Except.error "Cannot hit: point not owned by victim_player." := by
  simp only [Board.hit_checker_at]
  rw [if_pos h]

theorem owner_of_blot {b : Board} {i : Nat} {p : Player}
    (hv : b.points.getD i 0 = -p.val) :
    b.owner_of_point i = (other_player p).val := by
  simp only [Board.owner_of_point]
  rw [hv]
  cases p <;> simp [Player.val, other_player]

theorem lt_length_of_owner {b : Board} {i : Nat} {p : Player}
    (h : b.owner_of_point i = p.val) : i < b.points.length := by
  by_contra hge
  have h0 : b.points.getD i 0 = 0 := List.getD_eq_default _ _ (le_of_not_lt hge)
  have hp := val_pos_of_owner h
  rw [h0] at hp
  simp at hp

/-- Claim C6 (amended): applying a Move with `hitIndex = some h` to a
position where point `h` holds exactly one enemy checker — and whose
destination, when it is a board point other than `h`, is in range and not
enemy-occupied (always the case for generated Moves) — increments the
opponent's bar by one, empties the enemy count at `h` (it was exactly 1),
preserves both players' total checker counts, and ends with the mover's
own checker on `h` exactly when the Move lands there directly, showing the
hit is applied before the mover's checker is placed. -/
theorem C6_hit_semantics (st : GameState) (step : Step) (h : Nat)
    (st2 : GameState)
    (hWF : st.board.points.length = N_POINTS)
    (hhit : step.hit_index = some h)
    (hblot : st.board.points.getD h 0 = -st.current_player.val)
    (hdest : ∀ t, step.to_point = some t →
       t = h ∨ (t < N_POINTS ∧
         0 ≤ st.board.points.getD t 0 * st.current_player.val))
    (hok : apply_step st step = Except.ok st2) :
    st2.board.bar (other_player st.current_player)
      = st.board.bar (other_player st.current_player) + 1 ∧
    posPart (other_player st.current_player) (st.board.points.getD h 0) = 1 ∧
    posPart (other_player st.current_player) (st2.board.points.getD h 0) = 0 ∧
    (∀ q, st2.board.total_checkers_for q = st.board.total_checkers_for q) ∧
    st2.board.points.getD h 0
      = (if step.to_point = some h then st.current_player.val else 0) := by
  have hne1 : st.current_player ≠ other_player st.current_player :=
    fun hx => other_player_ne st.current_player hx.symm
  have hne2 : other_player st.current_player ≠ st.current_player :=
    other_player_ne st.current_player
  have hh : h < st.board.points.length := by
    by_contra hge
    have h0 : st.board.points.getD h 0 = 0 :=
      List.getD_eq_default _ _ (le_of_not_lt hge)
    rw [h0] at hblot
    cases hc : st.current_player <;> rw [hc] at hblot <;> simp [Player.val] at hblot
  have hvic : st.board.owner_of_point h = (other_player st.current_player).val :=
    owner_of_blot hblot
  obtain ⟨fp, tp, hi⟩ := step
  simp only at hhit hdest ⊢
  subst hhit
  rw [apply_step_hit, hit_checker_at_ok hvic, neg_val_other, ok_bind] at hok
  have hlh : (st.board.points.set h
      (st.board.points.getD h 0 + st.current_player.val)).getD h 0 = 0 := by
    rw [getD_set_self hh, hblot]
    ring
  cases fp with
  | none =>
      by_cases hbp : 0 < st.board.bar st.current_player
      case neg =>
        rw [move_checker_bar_fail
          (by dsimp only; rw [Function.update_noteq hne1]
              exact le_of_not_lt hbp)] at hok
        exact absurd hok (by simp [Except.bind])
      case pos =>
        cases tp with
        | none =>
            rw [move_checker_bar_off
              (by dsimp only; rw [Function.update_noteq hne1]; exact hbp),
              ok_bind] at hok
            rw [← ok_inj hok]
            refine ⟨?_, ?_, ?_, ?_, ?_⟩
            · dsimp only
              rw [Function.update_noteq hne2, Function.update_same]
            · rw [hblot]
              exact posPart_other_neg_val st.current_player
            · dsimp only
              rw [hlh]
              exact posPart_zero _
            · intro q
              rw [total_checkers_eq, total_checkers_eq]
              dsimp only
              rw [sum_posPart_blotfill q hh hblot]
              rcases eq_or_eq_other q st.current_player with hq | hq <;> rw [hq] <;>
                simp [Function.update_apply, hne1, hne2] <;> omega
            · dsimp only
              rw [hlh]
              simp
        | some t =>
            rw [move_checker_bar_point
              (by dsimp only; rw [Function.update_noteq hne1]; exact hbp),
              ok_bind] at hok
            rw [← ok_inj hok]
            rcases hdest t rfl with ht | ⟨htlt, htv⟩
            · subst ht
              refine ⟨?_, ?_, ?_, ?_, ?_⟩
              · dsimp only
                rw [Function.update_noteq hne2, Function.update_same]
              · rw [hblot]
                exact posPart_other_neg_val st.current_player
              · dsimp only
                rw [getD_set_self (by simpa using hh), hlh]
                simp only [zero_add]
                exact posPart_other_val st.current_player
              · intro q
                rw [total_checkers_eq, total_checkers_eq]
                dsimp only
                rw [sum_posPart_add q (by simpa using hh) (by rw [hlh]; simp)]
                rw [sum_posPart_blotfill q hh hblot]
                rcases eq_or_eq_other q st.current_player with hq | hq <;> rw [hq] <;>
                  simp [Function.update_apply, hne1, hne2] <;> omega
              · dsimp only
                rw [getD_set_self (by simpa using hh), hlh]
                simp
            · have hth : t ≠ h := by
                intro he
                subst he
                rw [hblot] at htv
                cases hc : st.current_player <;> rw [hc] at htv <;>
                  simp [Player.val] at htv
              refine ⟨?_, ?_, ?_, ?_, ?_⟩
              · dsimp only
                rw [Function.update_noteq hne2, Function.update_same]
              · rw [hblot]
                exact posPart_other_neg_val st.current_player
              · dsimp only
                rw [getD_set_ne hth, hlh]
                exact posPart_zero _
              · intro q
                rw [total_checkers_eq, total_checkers_eq]
                dsimp only
                rw [sum_posPart_add q (by simp; omega)
                  (by rw [getD_set_ne (Ne.symm hth)]; exact htv)]
                rw [sum_posPart_blotfill q hh hblot]
                rcases eq_or_eq_other q st.current_player with hq | hq <;> rw [hq] <;>
                  simp [Function.update_apply, hne1, hne2] <;> omega
              · dsimp only
                rw [getD_set_ne hth, hlh]
                simp [hth]
  | some i =>
      by_cases hop : Board.owner_of_point
          { st.board with
            points := st.board.points.set h
              (st.board.points.getD h 0 + st.current_player.val),
            bar := Function.update st.board.bar (other_player st.current_player)
              (st.board.bar (other_player st.current_player) + 1) } i
          = st.current_player.val
      case neg =>
        rw [move_checker_own_fail hop] at hok
        exact absurd hok (by simp [Except.bind])
      case pos =>
        have hih : i ≠ h := by
          intro he
          subst he
          have : Board.owner_of_point
              { st.board with
                points := st.board.points.set i
                  (st.board.points.getD i 0 + st.current_player.val),
                bar := Function.update st.board.bar (other_player st.current_player)
                  (st.board.bar (other_player st.current_player) + 1) } i = 0 := by
            simp only [Board.owner_of_point]
            dsimp only
            rw [getD_set_self hh, hblot]
            simp
          rw [this] at hop
          cases hc : st.current_player <;> rw [hc] at hop <;>
            simp [Player.val] at hop
        have hBi : (st.board.points.set h
            (st.board.points.getD h 0 + st.current_player.val)).getD i 0
            = st.board.points.getD i 0 := getD_set_ne (Ne.symm hih) _
        have hilt : i < st.board.points.length := by
          have := lt_length_of_owner hop
          simpa using this
        have hvi : 1 ≤ st.board.points.getD i 0 * st.current_player.val := by
          have := val_pos_of_owner hop
          dsimp only at this
          rw [hBi] at this
          exact this
        cases tp with
        | none =>
            rw [move_checker_point_off hop, ok_bind] at hok
            rw [← ok_inj hok]
            refine ⟨?_, ?_, ?_, ?_, ?_⟩
            · dsimp only
              rw [Function.update_same]
            · rw [hblot]
              exact posPart_other_neg_val st.current_player
            · dsimp only
              rw [getD_set_ne hih, hlh]
              exact posPart_zero _
            · intro q
              rw [total_checkers_eq, total_checkers_eq]
              dsimp only
              rw [sum_posPart_remove q (by simpa using hilt) (by rw [hBi]; exact hvi)]
              rw [sum_posPart_blotfill q hh hblot]
              rcases eq_or_eq_other q st.current_player with hq | hq <;> rw [hq] <;>
                simp [Function.update_apply, hne1, hne2] <;> omega
            · dsimp only
              rw [getD_set_ne hih, hlh]
              simp
        | some t =>
            rw [move_checker_point_point hop, ok_bind] at hok
            rw [← ok_inj hok]
            rcases hdest t rfl with ht | ⟨htlt, htv⟩
            · subst ht
              refine ⟨?_, ?_, ?_, ?_, ?_⟩
              · dsimp only
                rw [Function.update_same]
              · rw [hblot]
                exact posPart_other_neg_val st.current_player
              · dsimp only
                rw [getD_set_self (by simpa using hh),
                  getD_set_ne hih, hlh]
                simp only [zero_add]
                exact posPart_other_val st.current_player
              · intro q
                rw [total_checkers_eq, total_checkers_eq]
                dsimp only
                rw [sum_posPart_add q (by simpa using hh)
                  (by rw [getD_set_ne hih, hlh]; simp)]
                rw [sum_posPart_remove q (by simpa using hilt)
                  (by rw [hBi]; exact hvi)]
                rw [sum_posPart_blotfill q hh hblot]
                rcases eq_or_eq_other q st.current_player with hq | hq <;> rw [hq] <;>
                  simp [Function.update_apply, hne1, hne2] <;> omega
              · dsimp only
                rw [getD_set_self (by simpa using hh),
                  getD_set_ne hih, hlh]
                simp
            · have hth : t ≠ h := by
                intro he
                subst he
                rw [hblot] at htv
                cases hc : st.current_player <;> rw [hc] at htv <;>
                  simp [Player.val] at htv
              refine ⟨?_, ?_, ?_, ?_, ?_⟩
              · dsimp only
                rw [Function.update_same]
              · rw [hblot]
                exact posPart_other_neg_val st.current_player
              · dsimp only
                rw [getD_set_ne hth, getD_set_ne hih, hlh]
                exact posPart_zero _
              · intro q
                rw [total_checkers_eq, total_checkers_eq]
                dsimp only
                rw [sum_posPart_add q (by simp; omega) ?hvadd]
                case hvadd =>
                  by_cases hti : t = i
                  · subst hti
                    rw [getD_set_self (by simpa using hilt), hBi]
                    have hvv := hvi
                    cases hc : st.current_player <;> rw [hc] at hvv <;>
                      simp only [Player.val, mul_one, mul_neg_one] at * <;> omega
                  · rw [getD_set_ne (fun he => hti he.symm),
                      getD_set_ne (Ne.symm hth)]
                    exact htv
                rw [sum_posPart_remove q (by simpa using hilt) (by rw [hBi]; exact hvi)]
                rw [sum_posPart_blotfill q hh hblot]
                rcases eq_or_eq_other q st.current_player with hq | hq <;> rw [hq] <;>
                  simp [Function.update_apply, hne1, hne2] <;> omega
              · dsimp only
                rw [getD_set_ne hth, getD_set_ne hih, hlh]
                simp [hth]

/-- Counterexample board for C6 as literally stated: `P2` has a blot on
index 0 (the hit target) and a made point of two checkers on index 1;
`P1` has one checker on index 2. -/
def c6Board : Board :=
  { points := [-1, -2, 1, 0, 0, 0, 0, 0, 0, 0, 0, 0,
               0, 0, 0, 0, 0, 0, 0, 0, 0, 0, 0, 0],
    bar := fun _ => 0,
    borne_off := fun _ => 0 }

/-- Counterexample state for C6. -/
def c6State : GameState :=
  { board := c6Board, current_player := .P1, dice := none,
    turn_number := 0, history := [] }

/-- A Move (never produced by the generator) that hits the blot on index 0
while landing on the enemy-occupied index 1. -/
def c6Step : Step := { from_point := some 2, to_point := some 1, hit_index := some 0 }

/-- Claim C6 as universally stated is false: applying `c6Step` (whose hit
target holds exactly one enemy checker) succeeds but shrinks `P2`'s
total checker count from 3 to 2, because the destination write lands on an
enemy-occupied point — so "total checker count of both sides unchanged"
fails for a Move not produced by the generator. -/
theorem C6_counterexample :
    c6State.board.points.getD 0 0 = -(c6State.current_player.val) ∧
    (apply_step c6State c6Step).map
        (fun s => s.board.total_checkers_for .P2) = Except.ok 2 ∧
    c6State.board.total_checkers_for .P2 = 3 :=
  ⟨by decide, rfl, by decide⟩

/-- Witness board for the amended C6: `P2` blot on index 1, `P1` checker
on index 2, direct hit 2→1. -/
def c6wBoard : Board :=
  { points := [0, -1, 1, 0, 0, 0, 0, 0, 0, 0, 0, 0,
               0, 0, 0, 0, 0, 0, 0, 0, 0, 0, 0, 0],
    bar := fun _ => 0,
    borne_off := fun _ => 0 }

/-- Witness state for the amended C6. -/
def c6wState : GameState :=
  { board := c6wBoard, current_player := .P1, dice := none,
    turn_number := 0, history := [] }

/-- The direct hitting move 2→1 on `c6wBoard`. -/
def c6wStep : Step := { from_point := some 2, to_point := some 1, hit_index := some 1 }

/-- The state after applying `c6wStep` on `c6wState`. -/
def c6wNext : GameState :=
  { board := { points := [0, 1, 0, 0, 0, 0, 0, 0, 0, 0, 0, 0,
                          0, 0, 0, 0, 0, 0, 0, 0, 0, 0, 0, 0],
               bar := Function.update c6wBoard.bar .P2 1,
               borne_off := c6wBoard.borne_off },
    current_player := .P1, dice := none, turn_number := 0, history := [] }

theorem C6_witness :
    c6wNext.board.bar (other_player c6wState.current_player)
      = c6wState.board.bar (other_player c6wState.current_player) + 1 ∧
    c6wNext.board.points.getD 1 0 = c6wState.current_player.val := by
  have hc := C6_hit_semantics c6wState c6wStep 1 c6wNext (by decide) rfl
    (by decide)
    (by
      intro t ht
      left
      have h1 : (1 : Nat) = t := by simpa [c6wStep] using ht
      omega)
    rfl
  refine ⟨hc.1, ?_⟩
  have := hc.2.2.2.2
  simpa [c6wStep] using this

/-! ### C8: when `apply_step` raises -/

theorem vic_val_ne (pl : Player) : (other_player pl).val ≠ pl.val := by
  cases pl <;> simp [other_player, Player.val]

/-- After a successful hit at `hidx`, the mover still does not own `hidx`
(the hit removed one enemy checker, leaving the point empty or still
enemy-owned). -/
theorem owner_after_hit_ne {st : GameState} {hidx : Nat}
    (hv : st.board.owner_of_point hidx = (other_player st.current_player).val) :
    Board.owner_of_point
      { st.board with
        points := st.board.points.set hidx
          (st.board.points.getD hidx 0 + st.current_player.val),
        bar := Function.update st.board.bar (other_player st.current_player)
          (st.board.bar (other_player st.current_player) + 1) } hidx
      ≠ st.current_player.val := by
  have hlt : hidx < st.board.points.length := lt_length_of_owner hv
  have hneg : st.board.points.getD hidx 0 * st.current_player.val ≤ -1 := by
    have := val_pos_of_owner hv
    rw [val_other_player] at this
    have hmn : st.board.points.getD hidx 0 * -st.current_player.val
        = -(st.board.points.getD hidx 0 * st.current_player.val) := by ring
    omega
  intro heq
  have := val_pos_of_owner heq
  dsimp only at this
  rw [getD_set_self hlt] at this
  have hd : (st.board.points.getD hidx 0 + st.current_player.val)
      * st.current_player.val
      = st.board.points.getD hidx 0 * st.current_player.val
        + st.current_player.val * st.current_player.val := by ring
  have hsq : st.current_player.val * st.current_player.val = 1 := by
    cases st.current_player <;> decide
  omega

/-- Claim C8 (amended): `apply_step` raises exactly when the hit target
(if any) holds no enemy checker, or the origin does not hold a mover
checker (empty bar for a from-bar Move, origin point not owned by the
mover); and the error never occurs for Moves produced by
`single_die_moves` or Turns produced by `legal_actions`. -/
theorem C8_apply_error_characterization (st : GameState) :
    (∀ step : Step,
      (∃ e, apply_step st step = Except.error e) ↔
        ((∃ h, step.hit_index = some h ∧
            st.board.owner_of_point h ≠ (other_player st.current_player).val) ∨
         (step.from_point = none ∧ st.board.bar st.current_player ≤ 0) ∨
         (∃ i, step.from_point = some i ∧
            st.board.owner_of_point i ≠ st.current_player.val))) ∧
    (∀ die step, step ∈ single_die_moves st die →
       ∃ st2, apply_step st step = Except.ok st2) ∧
    (∀ dice acts a, legal_actions st dice = Except.ok acts → a ∈ acts →
       ∃ st2, apply_action st a = Except.ok st2) := by
  have hne1 : st.current_player ≠ other_player st.current_player :=
    fun hx => other_player_ne st.current_player hx.symm
  refine ⟨?_, ?_, ?_⟩
  · intro step
    obtain ⟨fp, tp, hi⟩ := step
    simp only
    cases hi with
    | none =>
        rw [apply_step_no_hit]
        cases fp with
        | none =>
            by_cases hb : st.board.bar st.current_player ≤ 0
            · rw [move_checker_bar_fail hb]
              exact iff_of_true ⟨_, rfl⟩ (Or.inr (Or.inl ⟨rfl, hb⟩))
            · have hb' : 0 < st.board.bar st.current_player := not_le.mp hb
              refine iff_of_false ?_ ?_
              · rintro ⟨e, he⟩
                cases tp with
                | none =>
                    rw [move_checker_bar_off hb', ok_bind] at he
                    exact Except.noConfusion he
                | some t =>
                    rw [move_checker_bar_point hb', ok_bind] at he
                    exact Except.noConfusion he
              · rintro (⟨h', hh', _⟩ | ⟨_, hbb⟩ | ⟨i', hi', _⟩)
                · exact Option.noConfusion hh'
                · exact hb hbb
                · exact Option.noConfusion hi'
        | some i =>
            by_cases ho : st.board.owner_of_point i = st.current_player.val
            · refine iff_of_false ?_ ?_
              · rintro ⟨e, he⟩
                cases tp with
                | none =>
                    rw [move_checker_point_off ho, ok_bind] at he
                    exact Except.noConfusion he
                | some t =>
                    rw [move_checker_point_point ho, ok_bind] at he
                    exact Except.noConfusion he
              · rintro (⟨h', hh', _⟩ | ⟨hff, _⟩ | ⟨i', hi', hoi⟩)
                · exact Option.noConfusion hh'
                · exact Option.noConfusion hff
                · rw [← (Option.some.injEq _ _).mp hi'] at hoi
                  exact hoi ho
            · rw [move_checker_own_fail ho]
              exact iff_of_true ⟨_, rfl⟩ (Or.inr (Or.inr ⟨i, rfl, ho⟩))
    | some hidx =>
        rw [apply_step_hit]
        by_cases hv : st.board.owner_of_point hidx
            = (other_player st.current_player).val
        · rw [hit_checker_at_ok hv, neg_val_other, ok_bind]
          cases fp with
          | none =>
              by_cases hb : st.board.bar st.current_player ≤ 0
              · rw [move_checker_bar_fail
                  (by dsimp only; rw [Function.update_noteq hne1]; exact hb)]
                exact iff_of_true ⟨_, rfl⟩ (Or.inr (Or.inl ⟨rfl, hb⟩))
              · have hb' : 0 < st.board.bar st.current_player := not_le.mp hb
                refine iff_of_false ?_ ?_
                · rintro ⟨e, he⟩
                  cases tp with
                  | none =>
                      rw [move_checker_bar_off
                        (by dsimp only; rw [Function.update_noteq hne1]; exact hb'),
                        ok_bind] at he
                      exact Except.noConfusion he
                  | some t =>
                      rw [move_checker_bar_point
                        (by dsimp only; rw [Function.update_noteq hne1]; exact hb'),
                        ok_bind] at he
                      exact Except.noConfusion he
                · rintro (⟨h', hh', hov⟩ | ⟨_, hbb⟩ | ⟨i', hi', _⟩)
                  · rw [← (Option.some.injEq _ _).mp hh'] at hov
                    exact hov hv
                  · exact hb hbb
                  · exact Option.noConfusion hi'
          | some i =>
              by_cases hoB : Board.owner_of_point
                  { st.board with
                    points := st.board.points.set hidx
                      (st.board.points.getD hidx 0 + st.current_player.val),
                    bar := Function.update st.board.bar
                      (other_player st.current_player)
                      (st.board.bar (other_player st.current_player) + 1) } i
                  = st.current_player.val
              · have hih : i ≠ hidx := by
                  intro he
                  subst he
                  exact owner_after_hit_ne hv hoB
                have hoOrig : st.board.owner_of_point i = st.current_player.val := by
                  have := hoB
                  simp only [Board.owner_of_point] at this ⊢
                  dsimp only at this
                  rw [getD_set_ne (Ne.symm hih)] at this
                  exact this
                refine iff_of_false ?_ ?_
                · rintro ⟨e, he⟩
                  cases tp with
                  | none =>
                      rw [move_checker_point_off hoB, ok_bind] at he
                      exact Except.noConfusion he
                  | some t =>
                      rw [move_checker_point_point hoB, ok_bind] at he
                      exact Except.noConfusion he
                · rintro (⟨h', hh', hov⟩ | ⟨hff, _⟩ | ⟨i', hi', hoi⟩)
                  · rw [← (Option.some.injEq _ _).mp hh'] at hov
                    exact hov hv
                  · exact Option.noConfusion hff
                  · rw [← (Option.some.injEq _ _).mp hi'] at hoi
                    exact hoi hoOrig
              · rw [move_checker_own_fail hoB]
                refine iff_of_true ⟨_, rfl⟩ (Or.inr (Or.inr ⟨i, rfl, ?_⟩))
                by_cases hih : i = hidx
                · subst hih
                  rw [hv]
                  exact vic_val_ne st.current_player
                · intro hoOrig
                  apply hoB
                  simp only [Board.owner_of_point] at hoOrig ⊢
                  dsimp only
                  rw [getD_set_ne (fun he => hih he.symm)]
                  exact hoOrig
        · rw [hit_checker_at_fail hv]
          exact iff_of_true ⟨_, rfl⟩ (Or.inl ⟨hidx, rfl, hv⟩)
  · intro die step hmem
    exact Exists.imp (fun st2 hp => hp.1) (step_sound hmem)
  · intro dice acts a hacts hmem
    obtain ⟨d1, d2⟩ := dice
    obtain ⟨raw, hraw, _, hprop⟩ :=
      genCandFuel_sound (expand_dice d1 d2).length st (expand_dice d1 d2)
    have hraw' : genCand st (expand_dice d1 d2) = Except.ok raw := hraw
    have hb := legal_actions_ok_of_genCand hraw'
    rw [hacts] at hb
    have hActs : acts = legalFilter d1 d2 raw := ok_inj hb
    subst hActs
    obtain ⟨su, hsu, haEq, _⟩ := mem_legalFilter_spec hmem
    obtain ⟨st2, hap, _, _⟩ := hprop su hsu
    rw [haEq]
    exact ⟨st2, hap⟩

/-- Counterexample board for C8 as literally stated: the hit target index
0 holds two enemy checkers. -/
def c8Board : Board :=
  { points := [-2, 0, 1, 0, 0, 0, 0, 0, 0, 0, 0, 0,
               0, 0, 0, 0, 0, 0, 0, 0, 0, 0, 0, 0],
    bar := fun _ => 0,
    borne_off := fun _ => 0 }

/-- Counterexample state for C8. -/
def c8State : GameState :=
  { board := c8Board, current_player := .P1, dice := none,
    turn_number := 0, history := [] }

/-- A Move hitting a point that holds two enemy checkers. -/
def c8Step : Step := { from_point := some 2, to_point := some 3, hit_index := some 0 }

/-- Claim C8 as stated is false: `c8Step.hit_index` targets index 0, which
holds two enemy checkers — not exactly one — yet `apply_step` succeeds
(the code only raises when the point is not enemy-owned at all). -/
theorem C8_counterexample :
    c8State.board.points.getD 0 0 = -2 ∧
    (apply_step c8State c8Step).isOk = true :=
  ⟨by decide, rfl⟩

/-- A Move whose origin holds no checker of the mover on the C3 board. -/
def c8BadStep : Step := { from_point := some 0, to_point := some 1, hit_index := none }

theorem C8_witness :
    (∃ e, apply_step c3State c8BadStep = Except.error e) ∧
    (∃ st2, apply_step c3State
      { from_point := none, to_point := some 21, hit_index := none }
        = Except.ok st2) := by
  have h := C8_apply_error_characterization c3State
  constructor
  · exact (h.1 c8BadStep).mpr (Or.inr (Or.inr ⟨0, rfl, by decide⟩))
  · exact h.2.1 3 _ (by decide)

/-! ### C10: history handling -/

theorem error_bind {α β : Type} (e : String) (f : α → Except String β) :
    (Except.error e : Except String α).bind f = Except.error e := rfl

/-- Every successful `apply_step` returns a state whose history is `[]`
(the `copy(copy_history=False)` wrapper). -/
theorem apply_step_history (st : GameState) (step : Step) (st2 : GameState)
    (h : apply_step st step = Except.ok st2) : st2.history = [] := by
  obtain ⟨fp, tp, hi⟩ := step
  cases hi with
  | none =>
      rw [apply_step_no_hit] at h
      cases hmc : st.board.move_checker st.current_player fp tp with
      | error e =>
          rw [hmc, error_bind] at h
          exact Except.noConfusion h
      | ok b2 =>
          rw [hmc, ok_bind] at h
          rw [← ok_inj h]
  | some hidx =>
      rw [apply_step_hit] at h
      cases hh : st.board.hit_checker_at (other_player st.current_player) hidx with
      | error e =>
          rw [hh, error_bind] at h
          exact Except.noConfusion h
      | ok b1 =>
          rw [hh, ok_bind] at h
          cases hmc : b1.move_checker st.current_player fp tp with
          | error e =>
              rw [hmc, error_bind] at h
              exact Except.noConfusion h
          | ok b2 =>
              rw [hmc, ok_bind] at h
              rw [← ok_inj h]

/-- Claim C10 (amended): a successful `apply_step` always returns a state
with empty history; `apply_action` on a Turn with at least one Move does
too; but `apply_action` on the empty Turn is the identity, so it returns
its input with any prior history intact. -/
theorem C10_history_reset :
    (∀ st step st2, apply_step st step = Except.ok st2 → st2.history = []) ∧
    (∀ st s ss st2, apply_action st (Action.mk (s :: ss)) = Except.ok st2 →
        st2.history = []) ∧
    (∀ st : GameState, apply_action st (Action.mk []) = Except.ok st) := by
  refine ⟨apply_step_history, ?_, apply_action_nil⟩
  intro st s ss
  induction ss generalizing st s with
  | nil =>
      intro st2 h
      rw [apply_action_cons] at h
      cases hap : apply_step st s with
      | error e =>
          rw [hap, error_bind] at h
          exact Except.noConfusion h
      | ok st1 =>
          rw [hap, ok_bind, apply_action_nil] at h
          rw [← ok_inj h]
          exact apply_step_history st s st1 hap
  | cons s2 ss2 ih =>
      intro st2 h
      rw [apply_action_cons] at h
      cases hap : apply_step st s with
      | error e =>
          rw [hap, error_bind] at h
          exact Except.noConfusion h
      | ok st1 =>
          rw [hap, ok_bind] at h
          exact ih st1 s2 st2 h

/-- A state carrying a nonempty history. -/
def c10State : GameState :=
  { board := Board.initial, current_player := .P1, dice := none,
    turn_number := 1, history := [{ turn := 0, player := 1, dice := (3, 4) }] }

/-- Claim C10 as stated is false: applying an empty Turn succeeds and
returns the input state unchanged, so its nonempty history survives. -/
theorem C10_counterexample :
    apply_action c10State (Action.mk []) = Except.ok c10State ∧
    c10State.history ≠ [] :=
  ⟨rfl, by decide⟩

/-- The position after playing `c2Step` from `c10State`. -/
def c10Next : GameState := { c2Next with turn_number := 1 }

theorem C10_witness : c10Next.history = [] :=
  C10_history_reset.1 c10State c2Step c10Next rfl

/-! ### Heuristic evaluation (heuristics.py) -/

/-- `Board.mirrored_for` from board.py: Player 1 sees the board as is;
for Player 2 the points are reversed and negated and the bar / borne-off
entries are swapped. -/
def Board.mirrored_for (b : Board) (player : Player) : Board :=
  if player = .P1 then b
  else { points := b.points.reverse.map (fun v => -v),
         bar := fun q => b.bar (other_player q),
         borne_off := fun q => b.borne_off (other_player q) }

/-- `HeuristicWeights` from heuristics.py (scores as exact rationals). -/
structure HeuristicWeights where
  made_point : ℚ
  home_made_point : ℚ
  blot : ℚ
  our_bar : ℚ
  opp_bar : ℚ
  borne_off : ℚ
  opp_borne_off : ℚ
  pip_distance : ℚ
deriving DecidableEq, Repr

/-- `DEFAULT_WEIGHTS` from heuristics.py. -/
def DEFAULT_WEIGHTS : HeuristicWeights :=
  { made_point := 1, home_made_point := 1/2, blot := -1, our_bar := -2,
    opp_bar := 3/2, borne_off := 2, opp_borne_off := -1, pip_distance := -1/10 }

/-- `evaluate_board` from heuristics.py: linear combination of made
points, blots, bar, borne-off and pip-distance features of the board
mirrored into the evaluating player's orientation. -/
def evaluate_board (board : Board) (player : Player)
    (weights : HeuristicWeights) : ℚ :=
  let b := board.mirrored_for player
  let made_points := ((List.range N_POINTS).filter
    (fun idx => decide (2 ≤ b.points.getD idx 0))).length
  let home_made_points := ((List.range N_POINTS).filter
    (fun idx => decide (2 ≤ b.points.getD idx 0)
      && decide (idx ∈ home_board_range Player.P1))).length
  let blots := ((List.range N_POINTS).filter
    (fun idx => decide (b.points.getD idx 0 = 1))).length
  let our_bar := b.bar .P1
  let opp_bar := b.bar .P2
  let our_borne := b.borne_off .P1
  let opp_borne := b.borne_off .P2
  let pip_distance := ((List.range N_POINTS).map (fun idx =>
    if 0 < b.points.getD idx 0 then b.points.getD idx 0 * ((idx : Int) + 1)
    else 0)).sum + our_bar * 25
  weights.made_point * made_points + weights.home_made_point * home_made_points
    + weights.blot * blots + weights.our_bar * our_bar
    + weights.opp_bar * opp_bar + weights.borne_off * our_borne
    + weights.opp_borne_off * opp_borne + weights.pip_distance * pip_distance

/-- `evaluate_state` from heuristics.py. -/
def evaluate_state (state : GameState) (perspective : Player)
    (weights : HeuristicWeights) : ℚ :=
  evaluate_board state.board perspective weights

/-! ### Float special values

The search manipulates Python floats, including `float('-inf')`,
`float('inf')` and their arithmetic (whose `+`, `*`, `<`, `==` follow
IEEE-754, with `nan` absorbing). Scores themselves are modelled as exact
rationals. -/

inductive XVal where
  | nan : XVal
  | ninf : XVal
  | pinf : XVal
  | fin : ℚ → XVal
deriving DecidableEq, Repr

/-- IEEE-754 addition on the modelled values. -/
def XVal.add : XVal → XVal → XVal
  | XVal.nan, _ => XVal.nan
  | _, XVal.nan => XVal.nan
  | XVal.pinf, XVal.ninf => XVal.nan
  | XVal.ninf, XVal.pinf => XVal.nan
  | XVal.pinf, _ => XVal.pinf
  | _, XVal.pinf => XVal.pinf
  | XVal.ninf, _ => XVal.ninf
  | _, XVal.ninf => XVal.ninf
  | XVal.fin a, XVal.fin b => XVal.fin (a + b)

/-- IEEE-754 multiplication by a rational constant (`prob * value`). -/
def XVal.scale (q : ℚ) : XVal → XVal
  | XVal.nan => XVal.nan
  | XVal.pinf => if 0 < q then XVal.pinf else if q < 0 then XVal.ninf else XVal.nan
  | XVal.ninf => if 0 < q then XVal.ninf else if q < 0 then XVal.pinf else XVal.nan
  | XVal.fin r => XVal.fin (q * r)

/-- IEEE-754 strict comparison (`nan` compares false with everything). -/
def XVal.lt : XVal → XVal → Bool
  | XVal.nan, _ => false
  | _, XVal.nan => false
  | XVal.ninf, XVal.ninf => false
  | XVal.ninf, _ => true
  | _, XVal.ninf => false
  | XVal.pinf, _ => false
  | XVal.fin _, XVal.pinf => true
  | XVal.fin a, XVal.fin b => decide (a < b)

/-- IEEE-754 equality test (`nan` is not equal to anything). -/
def XVal.beq : XVal → XVal → Bool
  | XVal.nan, _ => false
  | _, XVal.nan => false
  | XVal.ninf, XVal.ninf => true
  | XVal.pinf, XVal.pinf => true
  | XVal.fin a, XVal.fin b => decide (a = b)
  | _, _ => false

/-! ### Expectimax search (expectimax.py) -/

/-- `DICE_OUTCOMES` from expectimax.py: all 36 ordered pairs. -/
def DICE_OUTCOMES : List (Nat × Nat) :=
  (List.range' 1 6).flatMap (fun d1 => (List.range' 1 6).map (fun d2 => (d1, d2)))

/-- `DICE_PROBABILITY` from expectimax.py. -/
def DICE_PROBABILITY : ℚ := 1 / 36

/-- `ExpectimaxAgent._symmetric_dice_outcomes`: 6 doubles at 1/36 and 15
ascending non-double pairs at 2/36. -/
def symmetric_dice_outcomes : List ((Nat × Nat) × ℚ) :=
  ((List.range' 1 6).map (fun d => ((d, d), (1 : ℚ) / 36))) ++
  ((List.range' 1 6).flatMap (fun d1 =>
    (List.range' (d1 + 1) (6 - d1)).map (fun d2 => ((d1, d2), (2 : ℚ) / 36))))

/-- The best-value update of the decision loop: first value is always
adopted; afterwards a max node replaces on `value > best` and a min node
on `value < best`. -/
def updateBest (isMax : Bool) (best : Option XVal) (v : XVal) : Option XVal :=
  match best with
  | none => some v
  | some b =>
      if isMax then (if XVal.lt b v then some v else some b)
      else (if XVal.lt v b then some v else some b)

def bestFold (isMax : Bool) (vals : List XVal) : Option XVal :=
  vals.foldl (updateBest isMax) none

/-- `ExpectimaxAgent._decision_value`, parameterized by the evaluator
`ev` and by the chance-node continuation `chanceNext` (the recursive
call at depth - 1, already closed over the depth). Exceptions escaping
any part of the body propagate to the caller. -/
def decision_value (ev : GameState → Player → Except String XVal)
    (chanceNext : GameState → Player → Except String XVal)
    (st : GameState) (depth : Nat) (cur root : Player) (d1 d2 : Nat) :
    Except String XVal :=
  if depth = 0 ∨ st.is_game_over then ev st root
  else do
    let acts ← legal_actions st (d1, d2)
    if acts.isEmpty then chanceNext st (other_player cur)
    else do
      let vals ← acts.mapM (fun a =>
        (apply_action st a).bind (fun st2 => chanceNext st2 (other_player cur)))
      match bestFold (cur = root) vals with
      | some b => Except.ok b
      | none => Except.error "assert best_value is not None"

/-- `ExpectimaxAgent._chance_value`: average the decision values of the
dice outcomes, substituting `-inf` (max branch) or `+inf` (min branch)
for any outcome whose decision evaluation raises. -/
def chance_value (useSym : Bool) (ev : GameState → Player → Except String XVal) :
    Nat → GameState → Player → Player → Except String XVal
  | 0, st, _, root => ev st root
  | depth + 1, st, cur, root =>
      if st.is_game_over then ev st root
      else
        let outcomes := if useSym then symmetric_dice_outcomes
          else DICE_OUTCOMES.map (fun d => (d, DICE_PROBABILITY))
        Except.ok (outcomes.foldl (fun (total : XVal) (od : (Nat × Nat) × ℚ) =>
          XVal.add total (XVal.scale od.2
            (match decision_value ev
                (fun s2 p2 => chance_value useSym ev depth s2 p2 root)
                st (depth + 1) cur root od.1.1 od.1.2 with
             | Except.ok v => v
             | Except.error _ => if cur = root then XVal.ninf else XVal.pinf)))
          (XVal.fin 0))

/-- The best-action accumulator of `choose_action`: track the best value
and, in order, every action tying it. -/
def updateChoice (acc : Option (XVal × List Action)) (av : Action × XVal) :
    Option (XVal × List Action) :=
  match acc with
  | none => some (av.2, [av.1])
  | some (bv, bas) =>
      if XVal.lt bv av.2 then some (av.2, [av.1])
      else if XVal.beq av.2 bv then some (bv, bas ++ [av.1])
      else some (bv, bas)

/-- `ExpectimaxAgent.choose_action`: `none` when there is no legal Turn,
otherwise the nonempty list of best-value Turns from which
`random.choice` picks. -/
def choose_action (useSym : Bool) (ev : GameState → Player → Except String XVal)
    (depth : Nat) (st : GameState) (d1 d2 : Nat) :
    Except String (Option (List Action)) := do
  let acts ← legal_actions st (d1, d2)
  if acts.isEmpty then pure none
  else do
    let pairs ← acts.mapM (fun a =>
      (apply_action st a).bind (fun st2 =>
        (chance_value useSym ev (depth - 1) st2
          (other_player st.current_player) st.current_player).map
          (fun v => (a, v))))
    match pairs.foldl updateChoice none with
    | some bb => Except.ok (some bb.2)
    | none => Except.error "random.choice from empty sequence"

/-! ### List helpers for the search proofs -/

theorem mapM_ok_mem {α β : Type} {g : α → Except String β} :
    ∀ {l : List α} {bs : List β}, l.mapM g = Except.ok bs →
      ∀ a ∈ l, ∃ b ∈ bs, g a = Except.ok b := by
  intro l
  induction l with
  | nil => intro bs _ a ha; exact absurd ha (List.not_mem_nil a)
  | cons x xs ih =>
      intro bs hbs a ha
      rw [List.mapM_cons] at hbs
      cases hgx : g x with
      | error e => rw [hgx] at hbs; exact Except.noConfusion hbs
      | ok b =>
          rw [hgx, ok_bind_m] at hbs
          cases hxs : xs.mapM g with
          | error e => rw [hxs] at hbs; exact Except.noConfusion hbs
          | ok bs2 =>
              rw [hxs, ok_bind_m] at hbs
              have hb : b :: bs2 = bs := ok_inj hbs
              rcases List.mem_cons.mp ha with rfl | ha2
              · exact ⟨b, hb ▸ List.mem_cons_self b bs2, hgx⟩
              · obtain ⟨c, hc, hgc⟩ := ih hxs a ha2
                exact ⟨c, hb ▸ List.mem_cons_of_mem b hc, hgc⟩

theorem isEmpty_congr {α : Type} {l1 l2 : List α}
    (h : ∀ x, x ∈ l1 ↔ x ∈ l2) : l1.isEmpty = l2.isEmpty := by
  cases l1 with
  | nil =>
      cases l2 with
      | nil => rfl
      | cons y ys =>
          exact absurd ((h y).mpr (List.mem_cons_self y ys)) (List.not_mem_nil y)
  | cons x xs =>
      cases l2 with
      | nil =>
          exact absurd ((h x).mp (List.mem_cons_self x xs)) (List.not_mem_nil x)
      | cons y ys => rfl

theorem foldl_max_congr {l1 l2 : List Nat}
    (h : ∀ x, x ∈ l1 ↔ x ∈ l2) :
    l1.foldl Nat.max 0 = l2.foldl Nat.max 0 := by
  apply Nat.le_antisymm
  · rcases foldl_max_cases l1 0 with h1 | h1
    · rw [h1]; exact Nat.zero_le _
    · exact le_foldl_max_of_mem 0 ((h _).mp h1)
  · rcases foldl_max_cases l2 0 with h2 | h2
    · rw [h2]; exact Nat.zero_le _
    · exact le_foldl_max_of_mem 0 ((h _).mpr h2)

/-! ### XVal algebra -/

instance : Std.Associative XVal.add :=
  ⟨by intro x y z; cases x <;> cases y <;> cases z <;> simp [XVal.add, add_assoc]⟩

instance : Std.Commutative XVal.add :=
  ⟨by intro x y; cases x <;> cases y <;> simp [XVal.add, add_comm]⟩

theorem pairMerge (x : XVal) :
    XVal.add (XVal.scale (1 / 36) x) (XVal.scale (1 / 36) x)
      = XVal.scale (2 / 36) x := by
  cases x with
  | nan => rfl
  | ninf => norm_num [XVal.scale, XVal.add]
  | pinf => norm_num [XVal.scale, XVal.add]
  | fin r =>
      simp only [XVal.scale, XVal.add, XVal.fin.injEq]
      ring

theorem scale_pos_of_inf {q : ℚ} {c : XVal} (hq : 0 < q)
    (hc : c = XVal.ninf ∨ c = XVal.pinf) : XVal.scale q c = c := by
  rcases hc with rfl | rfl <;> simp [XVal.scale, hq]

theorem add_fin_inf {r : ℚ} {c : XVal}
    (hc : c = XVal.ninf ∨ c = XVal.pinf) : XVal.add (XVal.fin r) c = c := by
  rcases hc with rfl | rfl <;> rfl

theorem add_self_inf {c : XVal}
    (hc : c = XVal.ninf ∨ c = XVal.pinf) : XVal.add c c = c := by
  rcases hc with rfl | rfl <;> rfl

theorem foldl_const_inf {c : XVal}
    (hc : c = XVal.ninf ∨ c = XVal.pinf) :
    ∀ (l : List ((Nat × Nat) × ℚ)) (acc : XVal), (∀ od ∈ l, 0 < od.2) →
      acc = c →
      l.foldl (fun t od => XVal.add t (XVal.scale od.2 c)) acc = c := by
  intro l
  induction l with
  | nil => intro acc _ ha; simpa using ha
  | cons od l ih =>
      intro acc hpos ha
      rw [List.foldl_cons, ha,
        scale_pos_of_inf (hpos od (List.mem_cons_self od l)) hc, add_self_inf hc]
      exact ih c (fun x hx => hpos x (List.mem_cons_of_mem od hx)) rfl

theorem foldl_scale_inf {c : XVal}
    (hc : c = XVal.ninf ∨ c = XVal.pinf) :
    ∀ (l : List ((Nat × Nat) × ℚ)), (∀ od ∈ l, 0 < od.2) → l ≠ [] →
      l.foldl (fun t od => XVal.add t (XVal.scale od.2 c)) (XVal.fin 0) = c := by
  intro l hpos hne
  cases l with
  | nil => exact absurd rfl hne
  | cons od l =>
      rw [List.foldl_cons,
        scale_pos_of_inf (hpos od (List.mem_cons_self od l)) hc, add_fin_inf hc]
      exact foldl_const_inf hc l c (fun x hx => hpos x (List.mem_cons_of_mem od hx)) rfl

theorem error_bind_m {α β : Type} (e : String) (f : α → Except String β) :
    ((Except.error e : Except String α) >>= f) = Except.error e := rfl

/-- `DICE_OUTCOMES` evaluated. -/
theorem dice_outcomes_eq : DICE_OUTCOMES =
    [(1,1),(1,2),(1,3),(1,4),(1,5),(1,6),
     (2,1),(2,2),(2,3),(2,4),(2,5),(2,6),
     (3,1),(3,2),(3,3),(3,4),(3,5),(3,6),
     (4,1),(4,2),(4,3),(4,4),(4,5),(4,6),
     (5,1),(5,2),(5,3),(5,4),(5,5),(5,6),
     (6,1),(6,2),(6,3),(6,4),(6,5),(6,6)] := by rfl

/-- `symmetric_dice_outcomes` evaluated. -/
theorem sym_outcomes_eq : symmetric_dice_outcomes =
    [((1,1),(1:ℚ)/36),((2,2),(1:ℚ)/36),((3,3),(1:ℚ)/36),
     ((4,4),(1:ℚ)/36),((5,5),(1:ℚ)/36),((6,6),(1:ℚ)/36),
     ((1,2),(2:ℚ)/36),((1,3),(2:ℚ)/36),((1,4),(2:ℚ)/36),
     ((1,5),(2:ℚ)/36),((1,6),(2:ℚ)/36),
     ((2,3),(2:ℚ)/36),((2,4),(2:ℚ)/36),((2,5),(2:ℚ)/36),((2,6),(2:ℚ)/36),
     ((3,4),(2:ℚ)/36),((3,5),(2:ℚ)/36),((3,6),(2:ℚ)/36),
     ((4,5),(2:ℚ)/36),((4,6),(2:ℚ)/36),
     ((5,6),(2:ℚ)/36)] := by rfl

theorem dice_probs_pos : ∀ od ∈ DICE_OUTCOMES.map (fun d => (d, DICE_PROBABILITY)),
    0 < od.2 := by
  intro od hod
  obtain ⟨d, _, rfl⟩ := List.mem_map.mp hod
  norm_num [DICE_PROBABILITY]

theorem sym_probs_pos : ∀ od ∈ symmetric_dice_outcomes, 0 < od.2 := by
  intro od hod
  rw [sym_outcomes_eq] at hod
  fin_cases hod <;> norm_num

theorem dice_map_ne_nil :
    DICE_OUTCOMES.map (fun d => (d, DICE_PROBABILITY)) ≠ [] := by
  rw [dice_outcomes_eq]
  simp

theorem sym_ne_nil : symmetric_dice_outcomes ≠ [] := by
  rw [sym_outcomes_eq]
  simp

/-- Applying any Turn kept by `legal_actions` never raises. -/
theorem legal_apply_ok {st : GameState} {d1 d2 : Nat} {acts : List Action}
    {a : Action} (hacts : legal_actions st (d1, d2) = Except.ok acts)
    (hmem : a ∈ acts) : ∃ st2, apply_action st a = Except.ok st2 := by
  obtain ⟨raw, hraw, _, hprop⟩ :=
    genCandFuel_sound (expand_dice d1 d2).length st (expand_dice d1 d2)
  have hraw' : genCand st (expand_dice d1 d2) = Except.ok raw := hraw
  have hb := legal_actions_ok_of_genCand hraw'
  rw [hacts] at hb
  have hActs : acts = legalFilter d1 d2 raw := ok_inj hb
  subst hActs
  obtain ⟨su, hsu, haEq, _⟩ := mem_legalFilter_spec hmem
  obtain ⟨st2, hap, _, _⟩ := hprop su hsu
  rw [haEq]
  exact ⟨st2, hap⟩

/-- `legal_actions` never raises. -/
theorem legal_actions_ok (st : GameState) (d1 d2 : Nat) :
    ∃ acts, legal_actions st (d1, d2) = Except.ok acts := by
  obtain ⟨raw, hraw, -, -⟩ :=
    genCandFuel_sound (expand_dice d1 d2).length st (expand_dice d1 d2)
  have hraw' : genCand st (expand_dice d1 d2) = Except.ok raw := hraw
  exact ⟨legalFilter d1 d2 raw, legal_actions_ok_of_genCand hraw'⟩

theorem ok_map {α β : Type} (a : α) (f : α → β) :
    (Except.ok a : Except String α).map f = Except.ok (f a) := rfl

/-- With an evaluator that never raises, a chance node never raises: its
non-base branch is a pure accumulation. -/
theorem chance_ok {ev : GameState → Player → Except String XVal}
    (hev : ∀ s p, ∃ v, ev s p = Except.ok v) (useSym : Bool) :
    ∀ (d : Nat) (st : GameState) (cur root : Player),
      ∃ v, chance_value useSym ev d st cur root = Except.ok v := by
  intro d st cur root
  cases d with
  | zero => exact hev st root
  | succ n =>
      by_cases hgo : st.is_game_over = true
      · obtain ⟨v, hv⟩ := hev st root
        refine ⟨v, ?_⟩
        simp only [chance_value]
        rw [if_pos hgo]
        exact hv
      · exact ⟨_, by simp only [chance_value]; rw [if_neg hgo]⟩

/-- With the always-failing evaluator at depth 1, every decision
evaluation raises (whatever the dice are). -/
theorem decision_error_of_error_ev (useSym : Bool) (msg : String)
    (st : GameState) (cur root : Player) (a b : Nat)
    (hgo : st.is_game_over = false) :
    ∃ e, decision_value (fun _ _ => Except.error msg)
        (fun s2 p2 => chance_value useSym (fun _ _ => Except.error msg) 0 s2 p2 root)
        st 1 cur root a b = Except.error e := by
  simp only [decision_value]
  rw [if_neg (by simp [hgo])]
  obtain ⟨acts, hacts⟩ := legal_actions_ok st a b
  rw [hacts, ok_bind_m]
  by_cases hae : acts.isEmpty = true
  · rw [if_pos hae]
    exact ⟨msg, rfl⟩
  · rw [if_neg hae]
    cases acts with
    | nil => exact absurd rfl hae
    | cons x xs =>
        have hfx : ∃ e, ((apply_action st x).bind (fun st2 =>
            chance_value useSym (fun _ _ => Except.error msg) 0 st2
              (other_player cur) root)) = Except.error e := by
          cases hap : apply_action st x with
          | error e => exact ⟨e, by rw [error_bind]⟩
          | ok st2 => exact ⟨msg, by rw [ok_bind]; rfl⟩
        obtain ⟨e, he⟩ := hfx
        refine ⟨e, ?_⟩
        rw [List.mapM_cons, he, error_bind_m, error_bind_m]

/-- The best-action fold of `choose_action` always lands on a nonempty
tie list drawn from the processed pairs. -/
theorem foldl_updateChoice_spec (base : List (Action × XVal)) :
    ∀ (l : List (Action × XVal)) (acc : Option (XVal × List Action)),
      (∀ p ∈ l, p ∈ base) →
      (acc = none ∨ ∃ bv bas, acc = some (bv, bas) ∧ bas ≠ [] ∧
        ∀ a ∈ bas, ∃ v, (a, v) ∈ base) →
      (acc = none → l ≠ []) →
      ∃ bv bas, l.foldl updateChoice acc = some (bv, bas) ∧ bas ≠ [] ∧
        ∀ a ∈ bas, ∃ v, (a, v) ∈ base := by
  intro l
  induction l with
  | nil =>
      intro acc _ hacc hne
      rcases hacc with rfl | ⟨bv, bas, rfl, hbne, hmem⟩
      · exact absurd rfl (hne rfl)
      · exact ⟨bv, bas, rfl, hbne, hmem⟩
  | cons p l ih =>
      intro acc hsub hacc _
      rw [List.foldl_cons]
      have hp : p ∈ base := hsub p (List.mem_cons_self p l)
      have hstep : ∃ bv bas, updateChoice acc p = some (bv, bas) ∧ bas ≠ [] ∧
          ∀ a ∈ bas, ∃ v, (a, v) ∈ base := by
        rcases hacc with rfl | ⟨bv, bas, rfl, hbne, hmem⟩
        · refine ⟨p.2, [p.1], rfl, by simp, ?_⟩
          intro a ha
          rw [List.mem_singleton.mp ha]
          exact ⟨p.2, hp⟩
        · simp only [updateChoice]
          by_cases h1 : XVal.lt bv p.2 = true
          · rw [if_pos h1]
            refine ⟨p.2, [p.1], rfl, by simp, ?_⟩
            intro a ha
            rw [List.mem_singleton.mp ha]
            exact ⟨p.2, hp⟩
          · rw [if_neg h1]
            by_cases h2 : XVal.beq p.2 bv = true
            · rw [if_pos h2]
              refine ⟨bv, bas ++ [p.1], rfl, by simp, ?_⟩
              intro a ha
              rcases List.mem_append.mp ha with ha2 | ha2
              · exact hmem a ha2
              · rw [List.mem_singleton.mp ha2]
                exact ⟨p.2, hp⟩
            · rw [if_neg h2]
              exact ⟨bv, bas, rfl, hbne, hmem⟩
      obtain ⟨bv, bas, hup, hbne, hmem⟩ := hstep
      rw [hup]
      exact ih (some (bv, bas)) (fun q hq => hsub q (List.mem_cons_of_mem p hq))
        (Or.inr ⟨bv, bas, rfl, hbne, hmem⟩) (fun h => Option.noConfusion h)

theorem error_map {α β : Type} (e : String) (f : α → β) :
    (Except.error e : Except String α).map f = Except.error e := rfl

/-- Claim C7: a chance node with remaining depth never raises, whatever
the evaluator does; when every outcome's decision evaluation raises
(always-failing evaluator at depth 1), each failure is replaced by
`-inf` on a max branch and `+inf` on a min branch and the accumulation
still completes, returning that substituted value; and with an evaluator
that never raises, `choose_action` never raises: it reports the absence
of legal Turns as a non-exceptional `none` and otherwise returns a
nonempty list of legal Turns. -/
theorem C7_search_error_absorption :
    (∀ (useSym : Bool) (ev : GameState → Player → Except String XVal)
        (d : Nat) (st : GameState) (cur root : Player),
        st.is_game_over = false →
        ∃ v, chance_value useSym ev (d + 1) st cur root = Except.ok v) ∧
    (∀ (useSym : Bool) (msg : String) (st : GameState) (cur root : Player),
        st.is_game_over = false →
        chance_value useSym (fun _ _ => Except.error msg) 1 st cur root
          = Except.ok (if cur = root then XVal.ninf else XVal.pinf)) ∧
    (∀ (useSym : Bool) (ev : GameState → Player → Except String XVal)
        (depth : Nat) (st : GameState) (d1 d2 : Nat),
        (∀ s p, ∃ v, ev s p = Except.ok v) →
        ∃ acts, legal_actions st (d1, d2) = Except.ok acts ∧
          ((acts = [] ∧
              choose_action useSym ev depth st d1 d2 = Except.ok none) ∨
           (acts ≠ [] ∧ ∃ bas, choose_action useSym ev depth st d1 d2
               = Except.ok (some bas) ∧ bas ≠ [] ∧ ∀ x ∈ bas, x ∈ acts))) := by
  refine ⟨?_, ?_, ?_⟩
  · intro useSym ev d st cur root hgo
    exact ⟨_, by simp only [chance_value]; rw [if_neg (by simp [hgo])]⟩
  · intro useSym msg st cur root hgo
    have hc : (if cur = root then XVal.ninf else XVal.pinf) = XVal.ninf ∨
        (if cur = root then XVal.ninf else XVal.pinf) = XVal.pinf := by
      by_cases h : cur = root
      · rw [if_pos h]; exact Or.inl rfl
      · rw [if_neg h]; exact Or.inr rfl
    have hstep : chance_value useSym (fun _ _ => Except.error msg) 1 st cur root
        = (if st.is_game_over = true then Except.error msg
           else Except.ok ((if useSym = true then symmetric_dice_outcomes
              else DICE_OUTCOMES.map (fun d => (d, DICE_PROBABILITY))).foldl
             (fun (total : XVal) (od : (Nat × Nat) × ℚ) =>
               XVal.add total (XVal.scale od.2
                 (match decision_value (fun _ _ => Except.error msg)
                     (fun s2 p2 => chance_value useSym
                       (fun _ _ => Except.error msg) 0 s2 p2 root)
                     st 1 cur root od.1.1 od.1.2 with
                  | Except.ok v => v
                  | Except.error _ =>
                      if cur = root then XVal.ninf else XVal.pinf)))
             (XVal.fin 0))) := rfl
    rw [hstep, if_neg (by simp [hgo])]
    refine congrArg Except.ok ?_
    have hfun : (fun (total : XVal) (od : (Nat × Nat) × ℚ) =>
        XVal.add total (XVal.scale od.2
          (match decision_value (fun _ _ => Except.error msg)
              (fun s2 p2 => chance_value useSym
                (fun _ _ => Except.error msg) 0 s2 p2 root)
              st 1 cur root od.1.1 od.1.2 with
           | Except.ok v => v
           | Except.error _ => if cur = root then XVal.ninf else XVal.pinf)))
        = fun (total : XVal) (od : (Nat × Nat) × ℚ) =>
            XVal.add total (XVal.scale od.2
              (if cur = root then XVal.ninf else XVal.pinf)) := by
      funext t od
      obtain ⟨e, he⟩ :=
        decision_error_of_error_ev useSym msg st cur root od.1.1 od.1.2 hgo
      rw [he]
    rw [hfun]
    cases useSym with
    | false =>
        rw [if_neg Bool.false_ne_true]
        exact foldl_scale_inf hc _ dice_probs_pos dice_map_ne_nil
    | true =>
        rw [if_pos rfl]
        exact foldl_scale_inf hc _ sym_probs_pos sym_ne_nil
  · intro useSym ev depth st d1 d2 hev
    obtain ⟨acts, hacts⟩ := legal_actions_ok st d1 d2
    refine ⟨acts, hacts, ?_⟩
    by_cases hae : acts.isEmpty = true
    · left
      have hnil : acts = [] := by
        cases acts with
        | nil => rfl
        | cons x xs => exact absurd hae (by simp)
      refine ⟨hnil, ?_⟩
      simp only [choose_action]
      rw [hacts, ok_bind_m, if_pos hae]
      rfl
    · right
      have hneq : acts ≠ [] := by
        intro h
        subst h
        exact hae rfl
      refine ⟨hneq, ?_⟩
      have hg : ∀ x ∈ acts, ∃ y, ((apply_action st x).bind (fun st2 =>
          (chance_value useSym ev (depth - 1) st2 (other_player st.current_player)
            st.current_player).map (fun v => (x, v)))) = Except.ok y := by
        intro x hx
        obtain ⟨st2, hst2⟩ := legal_apply_ok hacts hx
        obtain ⟨v, hv⟩ := chance_ok hev useSym (depth - 1) st2
          (other_player st.current_player) st.current_player
        exact ⟨(x, v), by rw [hst2, ok_bind, hv, ok_map]⟩
      obtain ⟨pairs, hpairs, hlen, hout⟩ := mapM_ok_exists hg
      have hpne : pairs ≠ [] := by
        intro h
        subst h
        exact hneq (List.eq_nil_of_length_eq_zero hlen.symm)
      obtain ⟨bv, bas, hfold, hbne, hmem⟩ := foldl_updateChoice_spec pairs pairs
        none (fun p hp => hp) (Or.inl rfl) (fun _ => hpne)
      refine ⟨bas, ?_, hbne, ?_⟩
      · simp only [choose_action]
        rw [hacts, ok_bind_m, if_neg hae, hpairs, ok_bind_m, hfold]
      · intro x hx
        obtain ⟨v, hv⟩ := hmem x hx
        obtain ⟨x0, hx0, hgx0⟩ := hout (x, v) hv
        cases hap : apply_action st x0 with
        | error e =>
            rw [hap, error_bind] at hgx0
            exact Except.noConfusion hgx0
        | ok st2 =>
            rw [hap, ok_bind] at hgx0
            cases hch : chance_value useSym ev (depth - 1) st2
                (other_player st.current_player) st.current_player with
            | error e =>
                rw [hch, error_map] at hgx0
                exact Except.noConfusion hgx0
            | ok w =>
                rw [hch, ok_map] at hgx0
                have hpair := ok_inj hgx0
                injection hpair with h1 h2
                rw [← h1]
                exact hx0

/-! ### Dice-order invariance of the move generator -/

/-- The per-die chunk of `_generate_action_candidates._recurse` (the body
mapped over the active options). -/
def optChunk (st : GameState) (fuel : Nat) (o : Nat × List Nat × List Step) :
    Except String (List (List Step × List Nat)) := do
  let parts ← o.2.2.mapM (fun step => do
    let st2 ← apply_step st step
    let subs ← genCandFuel fuel st2 o.2.1
    pure (subs.map (fun sd => (step :: sd.1, o.1 :: sd.2))))
  pure parts.flatten

theorem genCandFuel_pair (st : GameState) (x y : Nat) :
    genCandFuel 2 st [x, y] =
      (if ([(x, ([y], single_die_moves st x)),
            (y, ([x], single_die_moves st y))].filter
              (fun o => !o.2.2.isEmpty)).isEmpty
       then Except.ok [([], [])]
       else do
         let chunks ← ([(x, ([y], single_die_moves st x)),
            (y, ([x], single_die_moves st y))].filter
              (fun o => !o.2.2.isEmpty)).mapM (optChunk st 1)
         pure chunks.flatten) := rfl

theorem mapM_one {α β : Type} (f : α → Except String β) (x : α) {cx : β}
    (hx : f x = Except.ok cx) : [x].mapM f = Except.ok [cx] := by
  rw [List.mapM_cons, hx, ok_bind_m, List.mapM_nil]
  rfl

theorem mapM_two {α β : Type} (f : α → Except String β) (x y : α) {cx cy : β}
    (hx : f x = Except.ok cx) (hy : f y = Except.ok cy) :
    [x, y].mapM f = Except.ok [cx, cy] := by
  rw [List.mapM_cons, hx, ok_bind_m, List.mapM_cons, hy, ok_bind_m, List.mapM_nil]
  rfl

theorem optChunk_ok (st : GameState) (fuel : Nat) (die : Nat) (rest : List Nat) :
    ∃ c, optChunk st fuel (die, (rest, single_die_moves st die)) = Except.ok c := by
  simp only [optChunk]
  have hg : ∀ step ∈ single_die_moves st die, ∃ z,
      ((apply_step st step) >>= (fun st2 =>
        (genCandFuel fuel st2 rest) >>= (fun subs =>
          pure (subs.map (fun sd => (step :: sd.1, die :: sd.2)))))) = Except.ok z := by
    intro step hstep
    obtain ⟨st2, hst2, -, -, -, -, -, -⟩ := step_sound hstep
    obtain ⟨subs, hsubs, -, -⟩ := genCandFuel_sound fuel st2 rest
    refine ⟨subs.map (fun sd => (step :: sd.1, die :: sd.2)), ?_⟩
    rw [hst2, ok_bind_m, hsubs, ok_bind_m]
    rfl
  obtain ⟨parts, hparts, -, -⟩ := mapM_ok_exists hg
  exact ⟨parts.flatten, by rw [hparts, ok_bind_m]; rfl⟩

theorem isEmpty_cons_ne {α : Type} (x : α) (l : List α) :
    ¬((x :: l).isEmpty = true) := by simp

/-- Swapping the two dice of a non-double (or any) roll changes the
enumerated raw candidates only by reordering: both enumerations succeed
and have the same members. -/
theorem genCand_swap_mem (st : GameState) (a b : Nat) :
    ∃ r1 r2, genCand st (expand_dice a b) = Except.ok r1 ∧
      genCand st (expand_dice b a) = Except.ok r2 ∧ ∀ x, x ∈ r1 ↔ x ∈ r2 := by
  by_cases hab : a = b
  · subst hab
    obtain ⟨r, hr, -, -⟩ :=
      genCandFuel_sound (expand_dice a a).length st (expand_dice a a)
    have hr' : genCand st (expand_dice a a) = Except.ok r := hr
    exact ⟨r, r, hr', hr', fun x => Iff.rfl⟩
  · have hba : b ≠ a := Ne.symm hab
    have hexp1 : expand_dice a b = [a, b] := by simp [expand_dice, hab]
    have hexp2 : expand_dice b a = [b, a] := by simp [expand_dice, hba]
    have h1 : genCand st (expand_dice a b) = genCandFuel 2 st [a, b] := by
      rw [hexp1]; rfl
    have h2 : genCand st (expand_dice b a) = genCandFuel 2 st [b, a] := by
      rw [hexp2]; rfl
    rw [h1, h2, genCandFuel_pair, genCandFuel_pair]
    cases hA : (single_die_moves st a).isEmpty with
    | true =>
        cases hB : (single_die_moves st b).isEmpty with
        | true =>
            have hf1 : [(a, ([b], single_die_moves st a)),
                (b, ([a], single_die_moves st b))].filter
                  (fun o => !o.2.2.isEmpty) = [] := by
              simp [List.filter_cons, hA, hB]
            have hf2 : [(b, ([a], single_die_moves st b)),
                (a, ([b], single_die_moves st a))].filter
                  (fun o => !o.2.2.isEmpty) = [] := by
              simp [List.filter_cons, hA, hB]
            rw [hf1, hf2, if_pos List.isEmpty_nil]
            exact ⟨[([], [])], [([], [])], rfl, rfl, fun x => Iff.rfl⟩
        | false =>
            have hf1 : [(a, ([b], single_die_moves st a)),
                (b, ([a], single_die_moves st b))].filter
                  (fun o => !o.2.2.isEmpty)
                = [(b, ([a], single_die_moves st b))] := by
              simp [List.filter_cons, hA, hB]
            have hf2 : [(b, ([a], single_die_moves st b)),
                (a, ([b], single_die_moves st a))].filter
                  (fun o => !o.2.2.isEmpty)
                = [(b, ([a], single_die_moves st b))] := by
              simp [List.filter_cons, hA, hB]
            rw [hf1, hf2, if_neg (isEmpty_cons_ne _ _)]
            obtain ⟨cB, hcb⟩ := optChunk_ok st 1 b [a]
            refine ⟨[cB].flatten, [cB].flatten, ?_, ?_, fun x => Iff.rfl⟩ <;>
              rw [mapM_one _ _ hcb, ok_bind_m] <;> rfl
    | false =>
        cases hB : (single_die_moves st b).isEmpty with
        | true =>
            have hf1 : [(a, ([b], single_die_moves st a)),
                (b, ([a], single_die_moves st b))].filter
                  (fun o => !o.2.2.isEmpty)
                = [(a, ([b], single_die_moves st a))] := by
              simp [List.filter_cons, hA, hB]
            have hf2 : [(b, ([a], single_die_moves st b)),
                (a, ([b], single_die_moves st a))].filter
                  (fun o => !o.2.2.isEmpty)
                = [(a, ([b], single_die_moves st a))] := by
              simp [List.filter_cons, hA, hB]
            rw [hf1, hf2, if_neg (isEmpty_cons_ne _ _)]
            obtain ⟨cA, hca⟩ := optChunk_ok st 1 a [b]
            refine ⟨[cA].flatten, [cA].flatten, ?_, ?_, fun x => Iff.rfl⟩ <;>
              rw [mapM_one _ _ hca, ok_bind_m] <;> rfl
        | false =>
            have hf1 : [(a, ([b], single_die_moves st a)),
                (b, ([a], single_die_moves st b))].filter
                  (fun o => !o.2.2.isEmpty)
                = [(a, ([b], single_die_moves st a)),
                   (b, ([a], single_die_moves st b))] := by
              simp [List.filter_cons, hA, hB]
            have hf2 : [(b, ([a], single_die_moves st b)),
                (a, ([b], single_die_moves st a))].filter
                  (fun o => !o.2.2.isEmpty)
                = [(b, ([a], single_die_moves st b)),
                   (a, ([b], single_die_moves st a))] := by
              simp [List.filter_cons, hA, hB]
            rw [hf1, hf2, if_neg (isEmpty_cons_ne _ _), if_neg (isEmpty_cons_ne _ _)]
            obtain ⟨cA, hca⟩ := optChunk_ok st 1 a [b]
            obtain ⟨cB, hcb⟩ := optChunk_ok st 1 b [a]
            refine ⟨[cA, cB].flatten, [cB, cA].flatten, ?_, ?_, ?_⟩
            · rw [mapM_two _ _ _ hca hcb, ok_bind_m]; rfl
            · rw [mapM_two _ _ _ hcb hca, ok_bind_m]; rfl
            · intro x
              simp only [List.flatten, List.append_nil, List.mem_append]
              exact Or.comm

/-- `legalFilter` is insensitive, up to membership, to the order of the
dice pair and to reordering of the raw candidates. -/
theorem mem_legalFilter_congr {d1 d2 : Nat}
    {raw1 raw2 : List (List Step × List Nat)}
    (hm : ∀ x, x ∈ raw1 ↔ x ∈ raw2) (ac : Action) :
    ac ∈ legalFilter d1 d2 raw1 ↔ ac ∈ legalFilter d2 d1 raw2 := by
  have hE : raw1.isEmpty = raw2.isEmpty := isEmpty_congr hm
  have hmapm : ∀ n, n ∈ raw1.map (fun sd => sd.1.length) ↔
      n ∈ raw2.map (fun sd => sd.1.length) := by
    intro n
    simp only [List.mem_map]
    constructor <;> rintro ⟨sd, hsd, rfl⟩
    · exact ⟨sd, (hm sd).mp hsd, rfl⟩
    · exact ⟨sd, (hm sd).mpr hsd, rfl⟩
  have hM : (raw1.map (fun sd => sd.1.length)).foldl Nat.max 0
      = (raw2.map (fun sd => sd.1.length)).foldl Nat.max 0 :=
    foldl_max_congr hmapm
  have hbest0 : ∀ sd, sd ∈ raw1.filter (fun sd =>
        sd.1.length == (raw1.map (fun sd => sd.1.length)).foldl Nat.max 0) ↔
      sd ∈ raw2.filter (fun sd =>
        sd.1.length == (raw1.map (fun sd => sd.1.length)).foldl Nat.max 0) := by
    intro sd
    simp only [List.mem_filter]
    rw [hm sd]
  have hhi : ∀ sd, sd ∈ (raw1.filter (fun sd =>
        sd.1.length == (raw1.map (fun sd => sd.1.length)).foldl Nat.max 0)).filter
          (fun sd => decide (Nat.max d1 d2 ∈ sd.2)) ↔
      sd ∈ (raw2.filter (fun sd =>
        sd.1.length == (raw1.map (fun sd => sd.1.length)).foldl Nat.max 0)).filter
          (fun sd => decide (Nat.max d1 d2 ∈ sd.2)) := by
    intro sd
    simp only [List.mem_filter]
    rw [hm sd]
  have hhiE := isEmpty_congr hhi
  have hmx : Nat.max d2 d1 = Nat.max d1 d2 := Nat.max_comm d2 d1
  simp only [legalFilter]
  rw [← hE, ← hM, hmx]
  by_cases hE1 : raw1.isEmpty = true
  · rw [if_pos hE1, if_pos hE1]
  · rw [if_neg hE1, if_neg hE1]
    by_cases hM0 : (raw1.map (fun sd => sd.1.length)).foldl Nat.max 0 = 0
    · rw [if_pos hM0, if_pos hM0]
    · rw [if_neg hM0, if_neg hM0]
      by_cases h3 : (raw1.map (fun sd => sd.1.length)).foldl Nat.max 0 = 1 ∧ d1 ≠ d2
      · have h3' : (raw1.map (fun sd => sd.1.length)).foldl Nat.max 0 = 1 ∧ d2 ≠ d1 :=
          ⟨h3.1, Ne.symm h3.2⟩
        rw [if_pos h3, if_pos h3']
        by_cases h4 : ((raw1.filter (fun sd =>
            sd.1.length == (raw1.map (fun sd => sd.1.length)).foldl Nat.max 0)).filter
              (fun sd => decide (Nat.max d1 d2 ∈ sd.2))).isEmpty = true
        · have h4' : ((raw2.filter (fun sd =>
              sd.1.length == (raw1.map (fun sd => sd.1.length)).foldl Nat.max 0)).filter
                (fun sd => decide (Nat.max d1 d2 ∈ sd.2))).isEmpty = true :=
            hhiE ▸ h4
          rw [if_pos h4, if_pos h4', mem_dedupFirst, mem_dedupFirst,
            List.mem_map, List.mem_map]
          constructor <;> rintro ⟨sd, hsd, rfl⟩
          · exact ⟨sd, (hbest0 sd).mp hsd, rfl⟩
          · exact ⟨sd, (hbest0 sd).mpr hsd, rfl⟩
        · have h4' : ¬(((raw2.filter (fun sd =>
              sd.1.length == (raw1.map (fun sd => sd.1.length)).foldl Nat.max 0)).filter
                (fun sd => decide (Nat.max d1 d2 ∈ sd.2))).isEmpty = true) := by
            rw [← hhiE]
            exact h4
          rw [if_neg h4, if_neg h4', mem_dedupFirst, mem_dedupFirst,
            List.mem_map, List.mem_map]
          constructor <;> rintro ⟨sd, hsd, rfl⟩
          · exact ⟨sd, (hhi sd).mp hsd, rfl⟩
          · exact ⟨sd, (hhi sd).mpr hsd, rfl⟩
      · have h3' : ¬((raw1.map (fun sd => sd.1.length)).foldl Nat.max 0 = 1 ∧ d2 ≠ d1) :=
          fun hc => h3 ⟨hc.1, Ne.symm hc.2⟩
        rw [if_neg h3, if_neg h3', mem_dedupFirst, mem_dedupFirst,
          List.mem_map, List.mem_map]
        constructor <;> rintro ⟨sd, hsd, rfl⟩
        · exact ⟨sd, (hbest0 sd).mp hsd, rfl⟩
        · exact ⟨sd, (hbest0 sd).mpr hsd, rfl⟩

/-- Swapping the dice changes `legal_actions` only by reordering. -/
theorem legal_actions_swap (st : GameState) (a b : Nat) :
    ∃ acts1 acts2, legal_actions st (a, b) = Except.ok acts1 ∧
      legal_actions st (b, a) = Except.ok acts2 ∧
      ∀ x, x ∈ acts1 ↔ x ∈ acts2 := by
  obtain ⟨r1, r2, hr1, hr2, hmem⟩ := genCand_swap_mem st a b
  exact ⟨legalFilter a b r1, legalFilter b a r2,
    legal_actions_ok_of_genCand hr1, legal_actions_ok_of_genCand hr2,
    fun x => mem_legalFilter_congr hmem x⟩

/-! ### The decision fold on finite values -/

theorem updateBest_max_fin (q0 q : ℚ) :
    updateBest true (some (XVal.fin q0)) (XVal.fin q)
      = some (XVal.fin (if q0 < q then q else q0)) := by
  simp only [updateBest, XVal.lt, decide_eq_true_eq]
  split_ifs <;> first | rfl | simp_all

theorem updateBest_min_fin (q0 q : ℚ) :
    updateBest false (some (XVal.fin q0)) (XVal.fin q)
      = some (XVal.fin (if q < q0 then q else q0)) := by
  simp only [updateBest, XVal.lt, decide_eq_true_eq]
  split_ifs <;> first | rfl | simp_all

theorem bestFoldAux_max :
    ∀ (l : List XVal) (q0 : ℚ), (∀ x ∈ l, ∃ q, x = XVal.fin q) →
      ∃ m, l.foldl (updateBest true) (some (XVal.fin q0)) = some (XVal.fin m) ∧
        (m = q0 ∨ XVal.fin m ∈ l) ∧ q0 ≤ m ∧ ∀ r, XVal.fin r ∈ l → r ≤ m := by
  intro l
  induction l with
  | nil =>
      intro q0 _
      exact ⟨q0, rfl, Or.inl rfl, le_refl q0,
        fun r hr => absurd hr (List.not_mem_nil _)⟩
  | cons x xs ih =>
      intro q0 hfin
      obtain ⟨q, rfl⟩ := hfin x (List.mem_cons_self x xs)
      rw [List.foldl_cons, updateBest_max_fin]
      obtain ⟨m, hm, hmem, hle, hall⟩ := ih (if q0 < q then q else q0)
        (fun y hy => hfin y (List.mem_cons_of_mem _ hy))
      refine ⟨m, hm, ?_, ?_, ?_⟩
      · rcases hmem with heq | hin
        · by_cases h : q0 < q
          · refine Or.inr ?_
            rw [heq, if_pos h]
            exact List.mem_cons_self _ _
          · refine Or.inl ?_
            rw [heq, if_neg h]
        · exact Or.inr (List.mem_cons_of_mem _ hin)
      · refine le_trans ?_ hle
        by_cases h : q0 < q
        · rw [if_pos h]; exact le_of_lt h
        · rw [if_neg h]
      · intro r hr
        rcases List.mem_cons.mp hr with hx | hxs
        · have hrq : r = q := by simpa using hx
          subst hrq
          refine le_trans ?_ hle
          by_cases h : q0 < r
          · rw [if_pos h]
          · rw [if_neg h]; exact le_of_not_lt h
        · exact hall r hxs

theorem bestFoldAux_min :
    ∀ (l : List XVal) (q0 : ℚ), (∀ x ∈ l, ∃ q, x = XVal.fin q) →
      ∃ m, l.foldl (updateBest false) (some (XVal.fin q0)) = some (XVal.fin m) ∧
        (m = q0 ∨ XVal.fin m ∈ l) ∧ m ≤ q0 ∧ ∀ r, XVal.fin r ∈ l → m ≤ r := by
  intro l
  induction l with
  | nil =>
      intro q0 _
      exact ⟨q0, rfl, Or.inl rfl, le_refl q0,
        fun r hr => absurd hr (List.not_mem_nil _)⟩
  | cons x xs ih =>
      intro q0 hfin
      obtain ⟨q, rfl⟩ := hfin x (List.mem_cons_self x xs)
      rw [List.foldl_cons, updateBest_min_fin]
      obtain ⟨m, hm, hmem, hle, hall⟩ := ih (if q < q0 then q else q0)
        (fun y hy => hfin y (List.mem_cons_of_mem _ hy))
      refine ⟨m, hm, ?_, ?_, ?_⟩
      · rcases hmem with heq | hin
        · by_cases h : q < q0
          · refine Or.inr ?_
            rw [heq, if_pos h]
            exact List.mem_cons_self _ _
          · refine Or.inl ?_
            rw [heq, if_neg h]
        · exact Or.inr (List.mem_cons_of_mem _ hin)
      · refine le_trans hle ?_
        by_cases h : q < q0
        · rw [if_pos h]; exact le_of_lt h
        · rw [if_neg h]
      · intro r hr
        rcases List.mem_cons.mp hr with hx | hxs
        · have hrq : r = q := by simpa using hx
          subst hrq
          refine le_trans hle ?_
          by_cases h : r < q0
          · rw [if_pos h]
          · rw [if_neg h]; exact le_of_not_lt h
        · exact hall r hxs

theorem bestFold_fin_max {l : List XVal}
    (hfin : ∀ x ∈ l, ∃ q, x = XVal.fin q) (hne : l ≠ []) :
    ∃ m, bestFold true l = some (XVal.fin m) ∧ XVal.fin m ∈ l ∧
      ∀ r, XVal.fin r ∈ l → r ≤ m := by
  cases l with
  | nil => exact absurd rfl hne
  | cons x xs =>
      obtain ⟨q, rfl⟩ := hfin x (List.mem_cons_self x xs)
      unfold bestFold
      rw [List.foldl_cons,
        show updateBest true none (XVal.fin q) = some (XVal.fin q) from rfl]
      obtain ⟨m, hm, hmem, hle, hall⟩ := bestFoldAux_max xs q
        (fun y hy => hfin y (List.mem_cons_of_mem _ hy))
      refine ⟨m, hm, ?_, ?_⟩
      · rcases hmem with heq | hin
        · rw [heq]; exact List.mem_cons_self _ _
        · exact List.mem_cons_of_mem _ hin
      · intro r hr
        rcases List.mem_cons.mp hr with hx | hxs
        · have hrq : r = q := by simpa using hx
          subst hrq
          exact hle
        · exact hall r hxs

theorem bestFold_fin_min {l : List XVal}
    (hfin : ∀ x ∈ l, ∃ q, x = XVal.fin q) (hne : l ≠ []) :
    ∃ m, bestFold false l = some (XVal.fin m) ∧ XVal.fin m ∈ l ∧
      ∀ r, XVal.fin r ∈ l → m ≤ r := by
  cases l with
  | nil => exact absurd rfl hne
  | cons x xs =>
      obtain ⟨q, rfl⟩ := hfin x (List.mem_cons_self x xs)
      unfold bestFold
      rw [List.foldl_cons,
        show updateBest false none (XVal.fin q) = some (XVal.fin q) from rfl]
      obtain ⟨m, hm, hmem, hle, hall⟩ := bestFoldAux_min xs q
        (fun y hy => hfin y (List.mem_cons_of_mem _ hy))
      refine ⟨m, hm, ?_, ?_⟩
      · rcases hmem with heq | hin
        · rw [heq]; exact List.mem_cons_self _ _
        · exact List.mem_cons_of_mem _ hin
      · intro r hr
        rcases List.mem_cons.mp hr with hx | hxs
        · have hrq : r = q := by simpa using hx
          subst hrq
          exact hle
        · exact hall r hxs

/-- On finite values the decision fold only depends on which values occur,
not on their order. -/
theorem bestFold_congr {l1 l2 : List XVal} (hm : ∀ x, x ∈ l1 ↔ x ∈ l2)
    (hfin : ∀ x ∈ l1, ∃ q, x = XVal.fin q) (hne1 : l1 ≠ []) (hne2 : l2 ≠ [])
    (isMax : Bool) : bestFold isMax l1 = bestFold isMax l2 := by
  have hfin2 : ∀ x ∈ l2, ∃ q, x = XVal.fin q :=
    fun x hx => hfin x ((hm x).mpr hx)
  cases isMax with
  | true =>
      obtain ⟨m1, hm1, hmem1, hall1⟩ := bestFold_fin_max hfin hne1
      obtain ⟨m2, hm2, hmem2, hall2⟩ := bestFold_fin_max hfin2 hne2
      have heq : m1 = m2 := le_antisymm
        (hall2 m1 ((hm _).mp hmem1)) (hall1 m2 ((hm _).mpr hmem2))
      rw [hm1, hm2, heq]
  | false =>
      obtain ⟨m1, hm1, hmem1, hall1⟩ := bestFold_fin_min hfin hne1
      obtain ⟨m2, hm2, hmem2, hall2⟩ := bestFold_fin_min hfin2 hne2
      have heq : m1 = m2 := le_antisymm
        (hall1 m2 ((hm _).mpr hmem2)) (hall2 m1 ((hm _).mp hmem1))
      rw [hm1, hm2, heq]

/-- Closed form of a non-terminal chance node. -/
theorem chance_succ (useSym : Bool) (ev : GameState → Player → Except String XVal)
    (n : Nat) (st : GameState) (cur root : Player)
    (hgo : st.is_game_over = false) :
    chance_value useSym ev (n + 1) st cur root = Except.ok
      ((if useSym = true then symmetric_dice_outcomes
        else DICE_OUTCOMES.map (fun d => (d, DICE_PROBABILITY))).foldl
        (fun (total : XVal) (od : (Nat × Nat) × ℚ) =>
          XVal.add total (XVal.scale od.2
            (match decision_value ev
                (fun s2 p2 => chance_value useSym ev n s2 p2 root)
                st (n + 1) cur root od.1.1 od.1.2 with
             | Except.ok v => v
             | Except.error _ => if cur = root then XVal.ninf else XVal.pinf)))
        (XVal.fin 0)) := by
  have h : chance_value useSym ev (n + 1) st cur root
      = (if st.is_game_over = true then ev st root
         else Except.ok
           ((if useSym = true then symmetric_dice_outcomes
             else DICE_OUTCOMES.map (fun d => (d, DICE_PROBABILITY))).foldl
             (fun (total : XVal) (od : (Nat × Nat) × ℚ) =>
               XVal.add total (XVal.scale od.2
                 (match decision_value ev
                     (fun s2 p2 => chance_value useSym ev n s2 p2 root)
                     st (n + 1) cur root od.1.1 od.1.2 with
                  | Except.ok v => v
                  | Except.error _ => if cur = root then XVal.ninf else XVal.pinf)))
             (XVal.fin 0))) := rfl
  rw [h, if_neg (by simp [hgo])]

/-- A fold of scaled finite contributions from a finite start is finite. -/
theorem foldl_fin {F : (Nat × Nat) × ℚ → XVal}
    (hF : ∀ od, ∃ q, F od = XVal.fin q) :
    ∀ (l : List ((Nat × Nat) × ℚ)) (q0 : ℚ),
      ∃ q, l.foldl (fun t od => XVal.add t (XVal.scale od.2 (F od)))
        (XVal.fin q0) = XVal.fin q := by
  intro l
  induction l with
  | nil => intro q0; exact ⟨q0, rfl⟩
  | cons od l ih =>
      intro q0
      obtain ⟨q, hq⟩ := hF od
      rw [List.foldl_cons, hq,
        show XVal.scale od.2 (XVal.fin q) = XVal.fin (od.2 * q) from rfl,
        show XVal.add (XVal.fin q0) (XVal.fin (od.2 * q))
          = XVal.fin (q0 + od.2 * q) from rfl]
      exact ih (q0 + od.2 * q)

/-- With finite-valued total evaluators on both slots, a decision node
returns a finite value. -/
theorem decision_fin {ev cn : GameState → Player → Except String XVal}
    (hev : ∀ s p, ∃ q, ev s p = Except.ok (XVal.fin q))
    (hcn : ∀ s p, ∃ q, cn s p = Except.ok (XVal.fin q))
    (st : GameState) (dep : Nat) (cur root : Player) (a b : Nat) :
    ∃ q, decision_value ev cn st dep cur root a b
      = Except.ok (XVal.fin q) := by
  by_cases hbase : dep = 0 ∨ st.is_game_over = true
  · obtain ⟨q, hq⟩ := hev st root
    refine ⟨q, ?_⟩
    simp only [decision_value]
    rw [if_pos hbase]
    exact hq
  · simp only [decision_value]
    rw [if_neg hbase]
    obtain ⟨acts, hacts⟩ := legal_actions_ok st a b
    rw [hacts, ok_bind_m]
    by_cases hae : acts.isEmpty = true
    · rw [if_pos hae]
      exact hcn st (other_player cur)
    · rw [if_neg hae]
      have hneq : acts ≠ [] := by
        intro h
        rw [h] at hae
        exact hae rfl
      have hg : ∀ x ∈ acts, ∃ y, ((apply_action st x).bind (fun st2 =>
          cn st2 (other_player cur))) = Except.ok y := by
        intro x hx
        obtain ⟨st2, hst2⟩ := legal_apply_ok hacts hx
        obtain ⟨qq, hqq⟩ := hcn st2 (other_player cur)
        exact ⟨XVal.fin qq, by rw [hst2, ok_bind, hqq]⟩
      obtain ⟨vals, hvals, hlen, hout⟩ := mapM_ok_exists hg
      rw [hvals, ok_bind_m]
      have hfin : ∀ v ∈ vals, ∃ q, v = XVal.fin q := by
        intro v hv
        obtain ⟨x, hx, hgx⟩ := hout v hv
        obtain ⟨st2, hst2⟩ := legal_apply_ok hacts hx
        rw [hst2, ok_bind] at hgx
        obtain ⟨qq, hqq⟩ := hcn st2 (other_player cur)
        rw [hqq] at hgx
        exact ⟨qq, (ok_inj hgx).symm⟩
      have hvne : vals ≠ [] := by
        intro h
        subst h
        exact hneq (List.eq_nil_of_length_eq_zero hlen.symm)
      cases hcr : decide (cur = root) with
      | false =>
          obtain ⟨m, hmv, -, -⟩ := bestFold_fin_min hfin hvne
          rw [hmv]
          exact ⟨m, rfl⟩
      | true =>
          obtain ⟨m, hmv, -, -⟩ := bestFold_fin_max hfin hvne
          rw [hmv]
          exact ⟨m, rfl⟩

/-- With a finite-valued total evaluator, a chance node returns a finite
value. -/
theorem chance_fin {ev : GameState → Player → Except String XVal}
    (hev : ∀ s p, ∃ q, ev s p = Except.ok (XVal.fin q)) (useSym : Bool) :
    ∀ (d : Nat) (st : GameState) (cur root : Player),
      ∃ q, chance_value useSym ev d st cur root = Except.ok (XVal.fin q) := by
  intro d
  induction d with
  | zero => intro st cur root; exact hev st root
  | succ n ih =>
      intro st cur root
      by_cases hgo : st.is_game_over = true
      · obtain ⟨q, hq⟩ := hev st root
        refine ⟨q, ?_⟩
        simp only [chance_value]
        rw [if_pos hgo]
        exact hq
      · have hgo' : st.is_game_over = false := by
          revert hgo
          cases st.is_game_over <;> simp
        rw [chance_succ useSym ev n st cur root hgo']
        have hF : ∀ od : (Nat × Nat) × ℚ, ∃ q,
            (match decision_value ev
                (fun s2 p2 => chance_value useSym ev n s2 p2 root)
                st (n + 1) cur root od.1.1 od.1.2 with
             | Except.ok v => v
             | Except.error _ => if cur = root then XVal.ninf else XVal.pinf)
              = XVal.fin q := by
          intro od
          obtain ⟨q, hq⟩ := decision_fin hev
            (fun s p => ih s p root) st (n + 1) cur root od.1.1 od.1.2
          exact ⟨q, by rw [hq]⟩
        obtain ⟨q, hq⟩ := foldl_fin hF
          (if useSym = true then symmetric_dice_outcomes
           else DICE_OUTCOMES.map (fun d => (d, DICE_PROBABILITY))) 0
        exact ⟨q, by rw [hq]⟩

/-- With finite-valued total evaluators, a decision node's value does not
depend on the order of the dice pair. -/
theorem decision_swap {ev cn : GameState → Player → Except String XVal}
    (hev : ∀ s p, ∃ q, ev s p = Except.ok (XVal.fin q))
    (hcn : ∀ s p, ∃ q, cn s p = Except.ok (XVal.fin q))
    (st : GameState) (dep : Nat) (cur root : Player) (a b : Nat) :
    decision_value ev cn st dep cur root a b
      = decision_value ev cn st dep cur root b a := by
  by_cases hbase : dep = 0 ∨ st.is_game_over = true
  · simp only [decision_value]
    rw [if_pos hbase, if_pos hbase]
  · simp only [decision_value]
    rw [if_neg hbase, if_neg hbase]
    obtain ⟨acts1, acts2, hacts1, hacts2, hmemA⟩ := legal_actions_swap st a b
    rw [hacts1, hacts2, ok_bind_m, ok_bind_m]
    have hE : acts1.isEmpty = acts2.isEmpty := isEmpty_congr hmemA
    by_cases hae : acts1.isEmpty = true
    · rw [if_pos hae, if_pos (hE ▸ hae)]
    · have hae2 : ¬acts2.isEmpty = true := by
        rw [← hE]
        exact hae
      rw [if_neg hae, if_neg hae2]
      have hneq1 : acts1 ≠ [] := by
        intro h
        rw [h] at hae
        exact hae rfl
      have hneq2 : acts2 ≠ [] := by
        intro h
        rw [h] at hae2
        exact hae2 rfl
      have hg : ∀ (acts : List Action), legal_actions st (a, b) = Except.ok acts ∨
          legal_actions st (b, a) = Except.ok acts →
          ∀ x ∈ acts, ∃ y, ((apply_action st x).bind (fun st2 =>
            cn st2 (other_player cur))) = Except.ok y := by
        intro acts hacts x hx
        have hap : ∃ st2, apply_action st x = Except.ok st2 := by
          rcases hacts with h | h
          · exact legal_apply_ok h hx
          · exact legal_apply_ok h hx
        obtain ⟨st2, hst2⟩ := hap
        obtain ⟨qq, hqq⟩ := hcn st2 (other_player cur)
        exact ⟨XVal.fin qq, by rw [hst2, ok_bind, hqq]⟩
      obtain ⟨vals1, hvals1, hlen1, hout1⟩ :=
        mapM_ok_exists (hg acts1 (Or.inl hacts1))
      obtain ⟨vals2, hvals2, hlen2, hout2⟩ :=
        mapM_ok_exists (hg acts2 (Or.inr hacts2))
      rw [hvals1, hvals2, ok_bind_m, ok_bind_m]
      have hfin1 : ∀ v ∈ vals1, ∃ q, v = XVal.fin q := by
        intro v hv
        obtain ⟨x, hx, hgx⟩ := hout1 v hv
        obtain ⟨st2, hst2⟩ := legal_apply_ok hacts1 hx
        rw [hst2, ok_bind] at hgx
        obtain ⟨qq, hqq⟩ := hcn st2 (other_player cur)
        rw [hqq] at hgx
        exact ⟨qq, (ok_inj hgx).symm⟩
      have hmemV : ∀ v, v ∈ vals1 ↔ v ∈ vals2 := by
        intro v
        constructor
        · intro hv
          obtain ⟨x, hx, hgx⟩ := hout1 v hv
          obtain ⟨y, hy, hgy⟩ := mapM_ok_mem hvals2 x ((hmemA x).mp hx)
          rw [hgx] at hgy
          rw [ok_inj hgy]
          exact hy
        · intro hv
          obtain ⟨x, hx, hgx⟩ := hout2 v hv
          obtain ⟨y, hy, hgy⟩ := mapM_ok_mem hvals1 x ((hmemA x).mpr hx)
          rw [hgx] at hgy
          rw [ok_inj hgy]
          exact hy
      have hvne1 : vals1 ≠ [] := by
        intro h
        subst h
        exact hneq1 (List.eq_nil_of_length_eq_zero hlen1.symm)
      have hvne2 : vals2 ≠ [] := by
        intro h
        subst h
        exact hneq2 (List.eq_nil_of_length_eq_zero hlen2.symm)
      rw [bestFold_congr hmemV hfin1 hvne1 hvne2 (decide (cur = root))]

set_option maxHeartbeats 1600000
/-- Summing a dice-symmetric per-outcome value over the 21 compressed
outcomes equals summing it over all 36 ordered outcomes. -/
theorem fold21_eq_fold36 (v : Nat → Nat → XVal)
    (hsym : ∀ a b, v a b = v b a) :
    symmetric_dice_outcomes.foldl
      (fun (t : XVal) (od : (Nat × Nat) × ℚ) =>
        XVal.add t (XVal.scale od.2 (v od.1.1 od.1.2))) (XVal.fin 0)
    = (DICE_OUTCOMES.map (fun d => (d, DICE_PROBABILITY))).foldl
      (fun (t : XVal) (od : (Nat × Nat) × ℚ) =>
        XVal.add t (XVal.scale od.2 (v od.1.1 od.1.2))) (XVal.fin 0) := by
  rw [sym_outcomes_eq, dice_outcomes_eq]
  simp only [List.map_cons, List.map_nil, List.foldl_cons, List.foldl_nil,
    DICE_PROBABILITY]
  rw [hsym 2 1, hsym 3 1, hsym 3 2, hsym 4 1, hsym 4 2, hsym 4 3,
    hsym 5 1, hsym 5 2, hsym 5 3, hsym 5 4,
    hsym 6 1, hsym 6 2, hsym 6 3, hsym 6 4, hsym 6 5]
  rw [← pairMerge (v 1 2), ← pairMerge (v 1 3), ← pairMerge (v 1 4),
    ← pairMerge (v 1 5), ← pairMerge (v 1 6), ← pairMerge (v 2 3),
    ← pairMerge (v 2 4), ← pairMerge (v 2 5), ← pairMerge (v 2 6),
    ← pairMerge (v 3 4), ← pairMerge (v 3 5), ← pairMerge (v 3 6),
    ← pairMerge (v 4 5), ← pairMerge (v 4 6), ← pairMerge (v 5 6)]
  ac_rfl
set_option maxHeartbeats 200000

/-- The engine's heuristic evaluator, lifted to the search's value type:
it is total. -/
def evalHeur : GameState → Player → Except String XVal :=
  fun s p => Except.ok (XVal.fin (evaluate_state s p DEFAULT_WEIGHTS))

theorem C7_witness :
    chance_value true (fun _ _ => Except.error "eval failure") 1
        GameState.initial .P2 .P1
      = Except.ok (if Player.P2 = Player.P1 then XVal.ninf else XVal.pinf) ∧
    (∃ acts, legal_actions GameState.initial (3, 1) = Except.ok acts ∧
      ((acts = [] ∧
          choose_action true evalHeur 2 GameState.initial 3 1 = Except.ok none) ∨
       (acts ≠ [] ∧ ∃ bas, choose_action true evalHeur 2 GameState.initial 3 1
           = Except.ok (some bas) ∧ bas ≠ [] ∧ ∀ x ∈ bas, x ∈ acts))) :=
  ⟨C7_search_error_absorption.2.1 true "eval failure" GameState.initial .P2 .P1
      (by decide),
   C7_search_error_absorption.2.2 true evalHeur 2 GameState.initial 3 1
      (fun s p => ⟨_, rfl⟩)⟩

/-- Claim C9: for every position, side to move, depth and root player —
and every total, finite-valued evaluator, as the engine's heuristic is —
the chance node computed with symmetry compression (6 doubles at 1/36
plus 15 unordered pairs at 2/36) equals the chance node computed over
all 36 ordered dice pairs at 1/36 each. -/
theorem C9_symmetric_equivalence
    (ev : GameState → Player → Except String XVal)
    (hev : ∀ s p, ∃ q : ℚ, ev s p = Except.ok (XVal.fin q)) :
    ∀ (depth : Nat) (st : GameState) (cur root : Player),
      chance_value true ev depth st cur root
        = chance_value false ev depth st cur root := by
  intro depth
  induction depth with
  | zero => intro st cur root; rfl
  | succ n ih =>
      intro st cur root
      by_cases hgo : st.is_game_over = true
      · have h1 : chance_value true ev (n + 1) st cur root = ev st root := by
          simp only [chance_value]
          rw [if_pos hgo]
        have h2 : chance_value false ev (n + 1) st cur root = ev st root := by
          simp only [chance_value]
          rw [if_pos hgo]
        rw [h1, h2]
      · have hgo' : st.is_game_over = false := by
          revert hgo
          cases st.is_game_over <;> simp
        rw [chance_succ true ev n st cur root hgo',
            chance_succ false ev n st cur root hgo']
        refine congrArg Except.ok ?_
        rw [if_pos rfl, if_neg Bool.false_ne_true]
        have hcnEq : (fun s2 p2 => chance_value true ev n s2 p2 root)
            = (fun s2 p2 => chance_value false ev n s2 p2 root) :=
          funext fun s2 => funext fun p2 => ih s2 p2 root
        rw [hcnEq]
        exact fold21_eq_fold36
          (fun a b =>
            match decision_value ev
                (fun s2 p2 => chance_value false ev n s2 p2 root)
                st (n + 1) cur root a b with
             | Except.ok v => v
             | Except.error _ => if cur = root then XVal.ninf else XVal.pinf)
          (fun a b =>
            congrArg (fun r : Except String XVal =>
              match r with
              | Except.ok v => v
              | Except.error _ => if cur = root then XVal.ninf else XVal.pinf)
              (decision_swap hev
                (fun s p => chance_fin hev false n s p root) st (n + 1) cur root a b))

theorem C9_witness :
    chance_value true evalHeur 1 GameState.initial .P2 .P1
      = chance_value false evalHeur 1 GameState.initial .P2 .P1 :=
  C9_symmetric_equivalence evalHeur (fun s p => ⟨_, rfl⟩) 1
    GameState.initial .P2 .P1

end BG
